import Mathlib

/-!
Verification of the GitFlow release-orchestration core of the zhengke-cli
repository (packages/git): VersionManager, BranchManager, RemoteManager,
the GitHub/Gitee platform adapters and the GitFlow orchestrator.

The development is a shallow embedding.  Pure computations (semantic
versioning, commit classification, branch naming) are translated to Lean
functions; the stateful orchestration phases are translated to explicit
state-passing functions over a repository-state record that also accumulate
a trace of the git / filesystem / platform operations they perform.
External outcomes (network calls, merge results) are supplied by an
environment record.  Logging calls of the source are not modelled.

The code depends on the npm package semver; its behaviour is modelled from
the published semver specification together with the npm-specific points the
code relies on: a version string is trimmed and may carry one leading v,
increments drop the prerelease component, and the wildcard range used by
maxSatisfying never matches a prerelease version.  Build metadata is
validated during parsing and discarded afterwards, exactly as the code only
ever observes validity, comparison and increment results.
-/

/-! ### Ordering basics -/

/-- Three-way comparison on naturals, as used for semver numeric fields. -/
def cmpNat (a b : Nat) : Ordering :=
  if a < b then .lt else if a = b then .eq else .gt

/-- Three-way comparison on characters by code point (JS string order on
identifiers restricted to ASCII). -/
def cmpChar (a b : Char) : Ordering :=
  cmpNat a.toNat b.toNat

/-- Lexicographic comparison of lists, a strict prefix being smaller. -/
def cmpLex (c : α → α → Ordering) : List α → List α → Ordering
  | [], [] => .eq
  | [], _ :: _ => .lt
  | _ :: _, [] => .gt
  | a :: as, b :: bs => (c a b).then (cmpLex c as bs)

/-- A prerelease identifier: numeric identifiers are compared numerically and
are always smaller than alphanumeric identifiers. -/
inductive PreId where
  | num (n : Nat)
  | alpha (s : List Char)
deriving DecidableEq

/-- Comparison of prerelease identifiers (semver precedence rule 11.4). -/
def cmpIdent : PreId → PreId → Ordering
  | .num a, .num b => cmpNat a b
  | .num _, .alpha _ => .lt
  | .alpha _, .num _ => .gt
  | .alpha a, .alpha b => cmpLex cmpChar a b

/-- Comparison of prerelease lists: an empty list (a release) has higher
precedence than any prerelease. -/
def cmpPre : List PreId → List PreId → Ordering
  | [], [] => .eq
  | [], _ :: _ => .gt
  | _ :: _, [] => .lt
  | a :: as, b :: bs => cmpLex cmpIdent (a :: as) (b :: bs)

/-- A parsed semantic version.  Build metadata is checked by the parser and
then discarded; it never takes part in precedence. -/
structure SemVer where
  major : Nat
  minor : Nat
  patch : Nat
  pre : List PreId
deriving DecidableEq

/-- Comparison of a comparator image under a projection. -/
def cmpBy (f : α → β) (c : β → β → Ordering) (a b : α) : Ordering :=
  c (f a) (f b)

/-- Sequential composition of comparators. -/
def cmpThen (c₁ c₂ : α → α → Ordering) (a b : α) : Ordering :=
  (c₁ a b).then (c₂ a b)

/-- Semver precedence: major, minor, patch, then the prerelease list. -/
def cmpVer : SemVer → SemVer → Ordering :=
  cmpThen (cmpBy SemVer.major cmpNat)
    (cmpThen (cmpBy SemVer.minor cmpNat)
      (cmpThen (cmpBy SemVer.patch cmpNat) (cmpBy SemVer.pre cmpPre)))

/-- The laws making a three-way comparator a total preorder comparison:
orientation, congruence of its equality, and transitivity of its strict
order. -/
structure CmpLaws (c : α → α → Ordering) : Prop where
  swap : ∀ a b, c a b = (c b a).swap
  eq_congr : ∀ a b d, c a b = .eq → c a d = c b d
  lt_trans : ∀ a b d, c a b = .lt → c b d = .lt → c a d = .lt

/-! ### Theorems about the comparator stack are in the theorem section;
definitions continue here. -/

/-- Decimal digit character for a digit value. -/
def digitChar : Nat → Char
  | 0 => '0' | 1 => '1' | 2 => '2' | 3 => '3' | 4 => '4'
  | 5 => '5' | 6 => '6' | 7 => '7' | 8 => '8' | _ => '9'

/-- Digit value of a decimal digit character. -/
def digitVal (c : Char) : Nat := c.toNat - 48

/-- Fuel-driven decimal rendering of a natural number (most significant digit
first); the fuel is structurally decreasing so that the kernel can evaluate
it. -/
def natDigitsAux : Nat → Nat → List Char
  | 0, _ => []
  | fuel + 1, n =>
    if n < 10 then [digitChar n]
    else natDigitsAux fuel (n / 10) ++ [digitChar (n % 10)]

/-- Decimal rendering of a natural number. -/
def natChars (n : Nat) : List Char := natDigitsAux (n + 1) n

/-- Value of a list of decimal digit characters. -/
def digitsToNat (cs : List Char) : Nat :=
  cs.foldl (fun acc c => acc * 10 + digitVal c) 0

/-- A decimal digit, tested on the code point. -/
def isDigitC (c : Char) : Bool := 48 ≤ c.toNat && c.toNat ≤ 57

/-- A nonzero decimal digit. -/
def isNonZeroDigitC (c : Char) : Bool := 49 ≤ c.toNat && c.toNat ≤ 57

/-- A numeric identifier in the semver grammar: digits only, and no leading
zero unless the identifier is exactly 0. -/
def isNumericIdent : List Char → Bool
  | [] => false
  | [c] => isDigitC c
  | c :: cs => isNonZeroDigitC c && cs.all isDigitC

/-- Characters allowed in prerelease and build identifiers: ASCII letters,
digits and the dash. -/
def isIdentChar (c : Char) : Bool :=
  isDigitC c || (65 ≤ c.toNat && c.toNat ≤ 90) || (97 ≤ c.toNat && c.toNat ≤ 122) || c == '-'

/-- Split a character list on a separator (the semver grammar separates
identifiers with dots). -/
def splitOnC (sep : Char) : List Char → List (List Char)
  | [] => [[]]
  | c :: cs =>
    if c = sep then [] :: splitOnC sep cs
    else
      match splitOnC sep cs with
      | [] => [[c]]
      | g :: gs => (c :: g) :: gs

/-- Break a character list at the first occurrence of a separator, returning
the part before it and, when the separator occurs, the part after it. -/
def breakAt (sep : Char) : List Char → List Char × Option (List Char)
  | [] => ([], none)
  | c :: cs =>
    if c = sep then ([], some cs)
    else
      let r := breakAt sep cs
      (c :: r.1, r.2)

/-- Remove leading and trailing whitespace (the semver parser trims its
input first). -/
def trimChars (cs : List Char) : List Char :=
  ((cs.dropWhile Char.isWhitespace).reverse.dropWhile Char.isWhitespace).reverse

/-- Parse one prerelease identifier: digit-only identifiers must be valid
numeric identifiers and become numeric; all other identifiers over the
allowed alphabet are alphanumeric. -/
def parsePreId (cs : List Char) : Option PreId :=
  if cs.isEmpty then none
  else if !cs.all isIdentChar then none
  else if cs.all isDigitC then
    if isNumericIdent cs then some (.num (digitsToNat cs)) else none
  else some (.alpha cs)

/-- Parse the dotted major.minor.patch core of a version. -/
def parseMain (cs : List Char) : Option (Nat × Nat × Nat) :=
  match splitOnC '.' cs with
  | [a, b, c] =>
    if isNumericIdent a && isNumericIdent b && isNumericIdent c then
      some (digitsToNat a, digitsToNat b, digitsToNat c)
    else none
  | _ => none

/-- Parse a dotted prerelease suffix. -/
def parsePre (cs : List Char) : Option (List PreId) :=
  (splitOnC '.' cs).mapM parsePreId

/-- Validate a dotted build-metadata suffix (its content is discarded). -/
def checkBuild (cs : List Char) : Bool :=
  (splitOnC '.' cs).all fun id => !id.isEmpty && id.all isIdentChar

/-- Parse a trimmed, v-stripped version: split off build metadata at the
first plus and the prerelease at the first dash of the remaining core. -/
def parseCore (cs : List Char) : Option SemVer :=
  let bp := breakAt '+' cs
  let buildOk := match bp.2 with | none => true | some b => checkBuild b
  if !buildOk then none
  else
    let mp := breakAt '-' bp.1
    match parseMain mp.1 with
    | none => none
    | some (M, m, p) =>
      match mp.2 with
      | none => some ⟨M, m, p, []⟩
      | some pcs =>
        match parsePre pcs with
        | none => none
        | some ids => some ⟨M, m, p, ids⟩

/-- Parse a version string: trim, allow one leading v, then parse the core. -/
def parseChars (cs : List Char) : Option SemVer :=
  let t := trimChars cs
  parseCore (if t.head? = some 'v' then t.tail else t)

/-- semver.parse on a string, yielding the structured version. -/
def parseSemver (s : String) : Option SemVer := parseChars s.data

/-- Truthiness of semver.valid. -/
def semverValid (s : String) : Bool := (parseSemver s).isSome

/-- The three increment kinds used by the code (constants.ts VersionType). -/
inductive VersionType where
  | major
  | minor
  | patch
deriving DecidableEq

/-- semver increment on a parsed version: a prerelease of the target level is
completed rather than bumped, and the prerelease component is always
dropped. -/
def SemVer.incr (v : SemVer) : VersionType → SemVer
  | .major =>
    if v.minor ≠ 0 ∨ v.patch ≠ 0 ∨ v.pre = [] then ⟨v.major + 1, 0, 0, []⟩
    else ⟨v.major, 0, 0, []⟩
  | .minor =>
    if v.patch ≠ 0 ∨ v.pre = [] then ⟨v.major, v.minor + 1, 0, []⟩
    else ⟨v.major, v.minor, 0, []⟩
  | .patch =>
    if v.pre = [] then ⟨v.major, v.minor, v.patch + 1, []⟩
    else ⟨v.major, v.minor, v.patch, []⟩

/-- Characters of one prerelease identifier. -/
def preIdChars : PreId → List Char
  | .num n => natChars n
  | .alpha s => s

/-- Characters of a prerelease suffix, including its leading dash. -/
def preChars : List PreId → List Char
  | [] => []
  | ids => '-' :: List.intercalate ['.'] (ids.map preIdChars)

/-- Canonical rendering of a parsed version, as semver format produces it
(build metadata is never part of it). -/
def SemVer.format (v : SemVer) : String :=
  String.mk (natChars v.major ++ ('.' :: natChars v.minor) ++ ('.' :: natChars v.patch)
    ++ preChars v.pre)

/-- semver.inc: null on an unparsable input, otherwise the canonical
rendering of the incremented version. -/
def semverInc (s : String) (t : VersionType) : Option String :=
  (parseSemver s).map fun v => (v.incr t).format

/-- The numeric result {-1, 0, 1} of semver.compare. -/
def ordToInt : Ordering → Int
  | .lt => -1
  | .eq => 0
  | .gt => 1

/-- semver.compare on strings; both arguments must parse (the library throws
otherwise, modelled as none). -/
def semverCompare (a b : String) : Option Int :=
  match parseSemver a, parseSemver b with
  | some x, some y => some (ordToInt (cmpVer x y))
  | _, _ => none

/-- One step of the maxSatisfying scan: an entry that does not parse or that
carries a prerelease (the wildcard range never matches a prerelease) is
ignored, and an entry strictly greater than the current maximum replaces it,
so the first occurrence of the maximum is kept. -/
def maxSatStep (acc : Option (String × SemVer)) (v : String) : Option (String × SemVer) :=
  match parseSemver v with
  | none => acc
  | some sv =>
    if !sv.pre.isEmpty then acc
    else
      match acc with
      | none => some (v, sv)
      | some (_, msv) => if cmpVer msv sv = .lt then some (v, sv) else acc

/-- semver.maxSatisfying with the wildcard range: scans the list in order and
returns the original string of the maximum wildcard-matching entry. -/
def maxSatisfyingStar (versions : List String) : Option String :=
  (versions.foldl maxSatStep none).map (·.1)

/-! ### Errors thrown by the orchestration code -/

/-- Errors raised by the modelled code: a thrown Error with its message, a
failing git primitive, or a platform (HTTP) failure. -/
inductive FlowError where
  | thrown (msg : String)
  | gitOp (op : String)
  | platform (msg : String)
deriving DecidableEq

/-- ERROR_MESSAGES.CONFLICTS_EXIST (constants.ts). -/
def CONFLICTS_EXIST_MSG : String := "存在代码冲突，请先解决冲突"

/-- ERROR_MESSAGES.NO_DEVELOP_BRANCH (constants.ts). -/
def NO_DEVELOP_BRANCH_MSG : String := "未找到开发分支，请先执行 git:commit 创建开发分支"

/-! ### VersionManager (version-manager.ts) -/

/-- The state of a VersionManager: the current version string and the display
tag lead character (the source field prefix, renamed here). -/
structure VersionManager where
  currentVersion : String
  pfx : String
deriving DecidableEq

/-- JS defaulting of a possibly-absent option string: undefined and the empty
string both fall back to the default. -/
def orDefault (o : Option String) (d : String) : String :=
  match o with
  | none => d
  | some s => if s = "" then d else s

/-- The VersionManager constructor: defaults the version to 0.0.0 and the tag
lead to v, then silently replaces an invalid version by 0.0.0 (it only logs a
warning); construction never throws. -/
def VersionManager.make (currentVersion? pfx? : Option String) : VersionManager :=
  let cv := orDefault currentVersion? "0.0.0"
  let p := orDefault pfx? "v"
  if semverValid cv then ⟨cv, p⟩ else ⟨"0.0.0", p⟩

/-- cleanVersion: drop a single leading v (the regex replace of the source). -/
def cleanVersion (s : String) : String :=
  if s.data.head? = some 'v' then String.mk s.data.tail else s

/-- getCurrentVersion. -/
def VersionManager.getCurrentVersion (vm : VersionManager) : String :=
  vm.currentVersion

/-- formatVersion: prepend the display lead character. -/
def VersionManager.formatVersion (vm : VersionManager) (v : String) : String :=
  vm.pfx ++ v

/-- getFormattedVersion. -/
def VersionManager.getFormattedVersion (vm : VersionManager) : String :=
  vm.formatVersion vm.currentVersion

/-- setCurrentVersion: cleans the argument, throws on an invalid version and
otherwise stores the cleaned string. -/
def VersionManager.setCurrentVersion (vm : VersionManager) (version : String) :
    Except FlowError VersionManager :=
  let cv := cleanVersion version
  if semverValid cv then .ok { vm with currentVersion := cv }
  else .error (.thrown ("无效的版本号: " ++ version))

/-- incrementVersion: semver.inc on the current version, throwing when the
increment is impossible, and storing the new version. -/
def VersionManager.incrementVersion (vm : VersionManager) (t : VersionType) :
    Except FlowError (String × VersionManager) :=
  match semverInc vm.currentVersion t with
  | none => .error (.thrown ("无法递增版本号: " ++ vm.currentVersion))
  | some nv => .ok (nv, { vm with currentVersion := nv })

/-- incrementPatch. -/
def VersionManager.incrementPatch (vm : VersionManager) :
    Except FlowError (String × VersionManager) :=
  vm.incrementVersion .patch

/-- compareVersions: clean both arguments, then semver.compare. -/
def compareVersions (v1 v2 : String) : Option Int :=
  semverCompare (cleanVersion v1) (cleanVersion v2)

/-- isValidVersion: validity of the cleaned string. -/
def isValidVersion (version : String) : Bool :=
  semverValid (cleanVersion version)

/-- getLatestVersionFromTags: clean every tag, keep the valid ones, and take
the wildcard maximum; null when no tag survives the validity filter. -/
def getLatestVersionFromTags (tags : List String) : Option String :=
  if ((tags.map cleanVersion).filter semverValid).isEmpty then none
  else maxSatisfyingStar ((tags.map cleanVersion).filter semverValid)

/-- The runtime value of a TS non-null assertion applied to a possibly-null
string: the assertion is erased, and a null interpolates as the text null. -/
def bangStr (o : Option String) : String :=
  match o with
  | some s => s
  | none => "null"

/-- suggestNextVersion: adopt the latest tagged version when one exists (this
may throw from setCurrentVersion), then render the three increment
candidates. -/
def VersionManager.suggestNextVersion (vm : VersionManager) (tags : List String) :
    Except FlowError ((String × String × String) × VersionManager) :=
  match (match getLatestVersionFromTags tags with
         | some latest => vm.setCurrentVersion latest
         | none => .ok vm : Except FlowError VersionManager) with
  | .error e => .error e
  | .ok vm1 =>
    .ok ((vm1.formatVersion (bangStr (semverInc vm1.currentVersion .major)),
          vm1.formatVersion (bangStr (semverInc vm1.currentVersion .minor)),
          vm1.formatVersion (bangStr (semverInc vm1.currentVersion .patch))), vm1)

/-! ### Platform adapters (github-platform.ts, gitee-platform.ts) -/

/-- An Octokit request error as the GitHub adapter observes it: an HTTP
status when one is available, and the platform diagnostic. -/
structure GitHubRequestError where
  status : Option Nat
  message : String
deriving DecidableEq

/-- An Axios request error as the Gitee adapter observes it: the optional
response status (absent for network-level failures) and the diagnostic. -/
structure GiteeRequestError where
  responseStatus : Option Nat
  message : String
deriving DecidableEq

/-- GitHubPlatform.repoExists applied to the outcome of the underlying
repos.get call: success means true, a 404 status means false, and any other
failure is rethrown unchanged. -/
def GitHubPlatform.repoExists (resp : Except GitHubRequestError Unit) :
    Except GitHubRequestError Bool :=
  match resp with
  | .ok _ => .ok true
  | .error e => if e.status = some 404 then .ok false else .error e

/-- GiteePlatform.repoExists applied to the outcome of the underlying GET:
success means true, a response with status 404 means false, and any other
failure is rethrown unchanged. -/
def GiteePlatform.repoExists (resp : Except GiteeRequestError Unit) :
    Except GiteeRequestError Bool :=
  match resp with
  | .ok _ => .ok true
  | .error e => if e.responseStatus = some 404 then .ok false else .error e

/-! ### String helpers shared by the branch logic -/

/-- Boolean list-prefix test (JS String.startsWith on the character level). -/
def isPrefixOfC : List Char → List Char → Bool
  | [], _ => true
  | _ :: _, [] => false
  | a :: as, b :: bs => a == b && isPrefixOfC as bs

/-- Boolean substring test (JS String.includes). -/
def containsSubC (needle : List Char) : List Char → Bool
  | [] => isPrefixOfC needle []
  | b :: bs => isPrefixOfC needle (b :: bs) || containsSubC needle bs

/-- String.startsWith. -/
def strStartsWith (s pre : String) : Bool := isPrefixOfC pre.data s.data

/-- String.includes. -/
def strContains (s sub : String) : Bool := containsSubC sub.data s.data

/-- The replace of the leading remotes/<remote>/ segment pair performed when
publish maps remote branch names to plain names; a string that does not match
the pattern is returned unchanged. -/
def stripRemotesPre (s : String) : String :=
  match s.data with
  | 'r' :: 'e' :: 'm' :: 'o' :: 't' :: 'e' :: 's' :: '/' :: rest =>
    match breakAt '/' rest with
    | (seg, some tail) => if seg.isEmpty then s else String.mk tail
    | (_, none) => s
  | _ => s

/-- The repository name extracted from a remote URL, modelling the source
regex that matches owner/repo with one optional .git suffix at the end of the
URL: one trailing .git is removed and the segment after the last slash is the
repository name, provided a slash-separated owner segment precedes it. -/
def parseRepoFromUrl (url : String) : Option String :=
  let t := if url.endsWith ".git" then String.mk (url.data.take (url.data.length - 4)) else url
  match (splitOnC '/' t.data).reverse with
  | repo :: owner :: _ =>
    if repo.isEmpty || owner.isEmpty then none else some (String.mk repo)
  | _ => none

/-! ### The repository state and operation trace -/

/-- One observable operation of the orchestration code: a git primitive, a
filesystem access, or a platform (HTTP) call. -/
inductive GitOp where
  | stashList
  | statusRead
  | getTagsOp
  | currentBranchRead
  | branchesRead
  | remotesRead
  | isRepoRead
  | addFiles (files : String)
  | commitOp (msg : String)
  | checkoutOp (b : String)
  | checkoutNewOp (b : String)
  | checkoutFromRemoteOp (localB remoteB : String)
  | mergeOp (b : String) (opts : List String)
  | pullOp (remote b : String)
  | pushOp (remote b : String) (opts : List String)
  | fetchOp (remote : String)
  | createTagOp (t : String) (msg : Option String)
  | pushTagsOp (remote : String)
  | deleteLocalOp (b : String) (force : Bool)
  | deleteRemoteOp (b remote : String)
  | addRemoteOp (name url : String)
  | writeConfigOp (file : String)
  | readConfigOp (file : String)
  | accessOp (file : String)
  | mkdirOp (dir : String)
  | writeFileOp (file : String)
  | gitLogOp
  | platformRepoExistsOp (owner repo : String)
  | platformGetRepoOp (owner repo : String)
  | platformCreateUserRepoOp (name : String)
  | platformCreateOrgRepoOp (org name : String)
  | platformGetLatestReleaseOp (owner repo : String)
  | platformCreateReleaseOp (owner repo tag : String)
  | platformUpdateDefaultBranchOp (owner repo branch : String)
deriving DecidableEq

/-- Operations that only observe state: everything that mutates the working
tree, the index, refs, remote configuration, the filesystem or the remote
platform is excluded (fetch is counted as a mutation of remote-tracking
refs). -/
def GitOp.isReadOnly : GitOp → Bool
  | .stashList | .statusRead | .getTagsOp | .currentBranchRead | .branchesRead
  | .remotesRead | .isRepoRead | .readConfigOp _ | .accessOp _ | .gitLogOp
  | .platformRepoExistsOp _ _ | .platformGetRepoOp _ _
  | .platformGetLatestReleaseOp _ _ => true
  | _ => false

/-- Operations that create a repository on the platform. -/
def GitOp.isRepoCreation : GitOp → Bool
  | .platformCreateUserRepoOp _ => true
  | .platformCreateOrgRepoOp _ _ => true
  | _ => false

/-- Operations that change the local remote configuration. -/
def GitOp.isRemoteConfigChange : GitOp → Bool
  | .addRemoteOp _ _ => true
  | _ => false

/-- The locally observable repository state.  Branch names are kept exactly
as git branch -a lists them: local branches by name and remote-tracking
branches under remotes/<remote>/. -/
structure RepoState where
  currentBranch : String
  branchListing : List String
  conflicted : Bool
  uncommitted : Bool
  stashCount : Nat
  tags : List String
  remotes : List (String × String)
  isRepo : Bool
  gitignoreExists : Bool
  releaseYmlExists : Bool
deriving DecidableEq

/-- The local branch names of a listing (GitClient.getBranches). -/
def RepoState.localBranches (st : RepoState) : List String :=
  st.branchListing.filter fun b => !strStartsWith b "remotes/"

/-- The remote-tracking entries of a listing (GitClient.getBranches). -/
def RepoState.remoteListed (st : RepoState) : List String :=
  st.branchListing.filter fun b => strStartsWith b "remotes/"

/-- A repository state together with the trace of operations performed so
far. -/
structure W where
  st : RepoState
  tr : List GitOp
deriving DecidableEq

/-- The initial world for a phase invocation. -/
def W.init (st : RepoState) : W := ⟨st, []⟩

/-- Record one performed operation. -/
def emit (w : W) (op : GitOp) : W := ⟨w.st, w.tr ++ [op]⟩

/-- Propagate a failure, or continue with the produced value. -/
def bindE (r : Except FlowError α × W) (f : α → W → Except FlowError β × W) :
    Except FlowError β × W :=
  match r with
  | (.error e, w) => (.error e, w)
  | (.ok a, w) => f a w

/-- The remote repository descriptor (git-platform.ts RepoInfo), with the
fields the orchestrator reads. -/
structure RepoInfo where
  name : String
  fullName : String
  url : String
  sshUrl : String
  cloneUrl : String
  defaultBranch : String
  isPrivate : Bool
deriving DecidableEq

/-- One commit of a git log, with the fields the release-notes generator
reads. -/
structure CommitEntry where
  message : String
  hash : String
  body : String
deriving DecidableEq

/-- Outcomes of the calls whose results the local state does not determine:
network operations, merge results and home-directory configuration. -/
structure Env where
  repoExistsResult : Except FlowError Bool
  getRepoResult : Except FlowError RepoInfo
  createUserRepoResult : Except FlowError RepoInfo
  createOrgRepoResult : Except FlowError RepoInfo
  pullOk : Bool
  pushOk : Bool
  pushTagsOk : Bool
  mergeOk : Bool
  checkoutFromRemoteOk : Bool
  deleteRemoteOk : Bool
  loginOwner : Option String
  latestReleaseTag : Except FlowError (Option String)
  createReleaseOk : Bool
  logResult : Option (List CommitEntry)
  cwdName : String

/-! ### GitClient primitives (git-client.ts) as state transitions -/

/-- git stash list: the number of stash entries. -/
def stashListStep (w : W) : Nat × W := (w.st.stashCount, emit w .stashList)

/-- git status, observed through hasConflicts. -/
def hasConflictsStep (w : W) : Bool × W := (w.st.conflicted, emit w .statusRead)

/-- git status, observed through hasUncommittedChanges. -/
def hasUncommittedStep (w : W) : Bool × W := (w.st.uncommitted, emit w .statusRead)

/-- git tag listing. -/
def getTagsStep (w : W) : List String × W := (w.st.tags, emit w .getTagsOp)

/-- The current branch. -/
def getCurrentBranchStep (w : W) : String × W :=
  (w.st.currentBranch, emit w .currentBranchRead)

/-- git branch -a, classified exactly as GitClient.getBranches does. -/
def getBranchesStep (w : W) : (List String × List String × List String) × W :=
  ((w.st.localBranches, w.st.remoteListed, w.st.branchListing), emit w .branchesRead)

/-- The configured remotes. -/
def getRemotesStep (w : W) : List (String × String) × W :=
  (w.st.remotes, emit w .remotesRead)

/-- Whether the working directory is a git repository. -/
def isRepoStep (w : W) : Bool × W := (w.st.isRepo, emit w .isRepoRead)

/-- git add. -/
def addStep (files : String) (w : W) : W := emit w (.addFiles files)

/-- git commit: the working tree becomes clean. -/
def commitStep (msg : String) (w : W) : W :=
  let w := emit w (.commitOp msg)
  { w with st.uncommitted := false }

/-- git checkout of an existing branch: switches to a local branch, or (the
git behaviour for a unique remote-tracking match) materialises the
origin-tracked branch of the same name; fails otherwise. -/
def checkoutStep (b : String) (w : W) : Except FlowError Unit × W :=
  let w := emit w (.checkoutOp b)
  if w.st.localBranches.contains b then (.ok (), { w with st.currentBranch := b })
  else if w.st.branchListing.contains ("remotes/origin/" ++ b) then
    (.ok (), { w with st.currentBranch := b, st.branchListing := w.st.branchListing ++ [b] })
  else (.error (.gitOp "checkout"), w)

/-- git checkout -b: fails when the branch already exists locally. -/
def checkoutNewStep (b : String) (w : W) : Except FlowError Unit × W :=
  let w := emit w (.checkoutNewOp b)
  if w.st.localBranches.contains b then (.error (.gitOp "checkout -b"), w)
  else (.ok (), { w with st.currentBranch := b, st.branchListing := w.st.branchListing ++ [b] })

/-- git checkout -b local remote: creates a local branch from a
remote-tracking one; the remote side is a network-backed ref, so success is
environment-determined. -/
def checkoutFromRemoteStep (env : Env) (localB remoteB : String) (w : W) :
    Except FlowError Unit × W :=
  let w := emit w (.checkoutFromRemoteOp localB remoteB)
  if env.checkoutFromRemoteOk then
    (.ok (), { w with st.currentBranch := localB, st.branchListing := w.st.branchListing ++ [localB] })
  else (.error (.gitOp "checkout -b from remote"), w)

/-- git merge with options: the result depends on content, supplied by the
environment. -/
def mergeStep (env : Env) (b : String) (opts : List String) (w : W) :
    Except FlowError Unit × W :=
  let w := emit w (.mergeOp b opts)
  if env.mergeOk then (.ok (), w) else (.error (.gitOp "merge"), w)

/-- git pull. -/
def pullStep (env : Env) (remote b : String) (w : W) : Except FlowError Unit × W :=
  let w := emit w (.pullOp remote b)
  if env.pullOk then (.ok (), w) else (.error (.gitOp "pull"), w)

/-- git push with options. -/
def pushStep (env : Env) (remote b : String) (opts : List String) (w : W) :
    Except FlowError Unit × W :=
  let w := emit w (.pushOp remote b opts)
  if env.pushOk then (.ok (), w) else (.error (.gitOp "push"), w)

/-- git tag: creating an already existing tag fails. -/
def createTagStep (t : String) (msg : Option String) (w : W) : Except FlowError Unit × W :=
  let w := emit w (.createTagOp t msg)
  if w.st.tags.contains t then (.error (.gitOp "tag"), w)
  else (.ok (), { w with st.tags := w.st.tags ++ [t] })

/-- git push --tags. -/
def pushTagsStep (env : Env) (remote : String) (w : W) : Except FlowError Unit × W :=
  let w := emit w (.pushTagsOp remote)
  if env.pushTagsOk then (.ok (), w) else (.error (.gitOp "push --tags"), w)

/-- git branch -d: deleting the current branch or a missing branch fails
(the unmerged case is subsumed by the environment-free approximation that an
existing non-current branch deletes). -/
def deleteLocalStep (b : String) (force : Bool) (w : W) : Except FlowError Unit × W :=
  let w := emit w (.deleteLocalOp b force)
  if w.st.localBranches.contains b && b != w.st.currentBranch then
    (.ok (), { w with st.branchListing := w.st.branchListing.filter (· != b) })
  else (.error (.gitOp "branch -d"), w)

/-- git push origin --delete: a remote-side operation, environment
determined; on success the remote-tracking entry disappears. -/
def deleteRemoteStep (env : Env) (b remote : String) (w : W) : Except FlowError Unit × W :=
  let w := emit w (.deleteRemoteOp b remote)
  if env.deleteRemoteOk then
    (.ok (), { w with st.branchListing :=
      w.st.branchListing.filter (· != "remotes/" ++ remote ++ "/" ++ b) })
  else (.error (.gitOp "push --delete"), w)

/-- git remote add. -/
def addRemoteStep (name url : String) (w : W) : W :=
  let w := emit w (.addRemoteOp name url)
  { w with st.remotes := w.st.remotes ++ [(name, url)] }

/-! ### BranchManager (branch-manager.ts); the orchestrator constructs it
with the default names main and develop. -/

/-- The configured main branch name of the orchestrator's BranchManager. -/
def mainBranchName : String := "main"

/-- The configured develop branch name of the orchestrator's BranchManager. -/
def developBranchName : String := "develop"

/-- The branch kinds of the naming policy (constants.ts BranchType). -/
inductive BranchType where
  | feature
  | bugfix
  | hotfix
  | release
deriving DecidableEq

/-- The slug of a branch name: lower-cased, with every character outside
lowercase letters, digits and dashes replaced by a dash. -/
def sanitizeName (name : String) : String :=
  String.mk (name.data.map fun c =>
    let c := c.toLower
    if c.isLower || c.isDigit || c == '-' then c else '-')

/-- generateBranchName: the deterministic naming policy. -/
def generateBranchName (t : BranchType) (name : String) (version : Option String) : String :=
  let sanitized := sanitizeName name
  match t with
  | .feature => "feature/" ++ sanitized
  | .bugfix => "bugfix/" ++ sanitized
  | .hotfix => match version with | some v => "hotfix/" ++ v | none => "hotfix/" ++ sanitized
  | .release => match version with | some v => "release/" ++ v | none => "release/" ++ sanitized

/-- The develop branch name computed by createDevelopBranch: a version
suffix wins, then a name suffix (unless the name is develop itself),
otherwise the plain develop branch. -/
def developBranchFor (branchName? version? : Option String) : String :=
  match version? with
  | some v => developBranchName ++ "/" ++ v
  | none =>
    match branchName? with
    | some n => if n != developBranchName then developBranchName ++ "/" ++ n else developBranchName
    | none => developBranchName

/-- branchExists: membership in the full branch -a listing. -/
def branchExistsStep (branchName : String) (w : W) : Bool × W :=
  let r := getBranchesStep w
  (r.1.2.2.contains branchName, r.2)

/-- createDevelopBranch: compute the branch name, then check the listing and
either switch to the existing branch or create a new one; the computed name
is returned. -/
def createDevelopBranch (branchName? version? : Option String) (w : W) :
    Except FlowError String × W :=
  let fullBranchName := developBranchFor branchName? version?
  let er := branchExistsStep fullBranchName w
  if er.1 then
    bindE (checkoutStep fullBranchName er.2) fun _ w => (.ok fullBranchName, w)
  else
    bindE (checkoutNewStep fullBranchName er.2) fun _ w => (.ok fullBranchName, w)

/-- checkoutMain. -/
def checkoutMain (w : W) : Except FlowError Unit × W :=
  checkoutStep mainBranchName w

/-- mergeFromMain: reads the current branch (for logging) and merges the
main branch into it. -/
def mergeFromMain (env : Env) (opts : List String) (w : W) : Except FlowError Unit × W :=
  let r := getCurrentBranchStep w
  mergeStep env mainBranchName opts r.2

/-- isOnDevelopBranch without a version argument: the current branch is the
develop branch or carries the develop/ path. -/
def isOnDevelopBranch (w : W) : Bool × W :=
  let r := getCurrentBranchStep w
  (r.1 == developBranchName || strStartsWith r.1 (developBranchName ++ "/"), r.2)

/-- deleteBranch with both flags: both deletions are attempted and every
failure is downgraded to a warning, so the operation itself never throws. -/
def deleteBranchBoth (env : Env) (branchName : String) (w : W) : W :=
  let w :=
    match deleteLocalStep branchName false w with
    | (_, w) => w
  match deleteRemoteStep env branchName "origin" w with
  | (_, w) => w

/-! ### RemoteManager (remote-manager.ts); the orchestrator constructs it
with the default remote name origin. -/

/-- addRemoteIfNotExists: outside a repository the call is skipped; an
existing origin remote is left untouched; otherwise the remote is added. -/
def addRemoteIfNotExists (url : String) (w : W) : Except FlowError Unit × W :=
  let r := isRepoStep w
  if !r.1 then (.ok (), r.2)
  else
    let rr := getRemotesStep r.2
    if rr.1.any (fun p => p.1 == "origin") then (.ok (), rr.2)
    else (.ok (), addRemoteStep "origin" url rr.2)

/-- The owner kinds of repository creation (constants.ts RepoType). -/
inductive RepoType where
  | user
  | org
deriving DecidableEq

/-- initRemote: look the repository up, create it only when absent (user- or
org-scoped), then wire the origin remote to the clone URL. -/
def initRemote (env : Env) (repoName : String) (repoType : RepoType) (owner : String)
    (w : W) : Except FlowError RepoInfo × W :=
  let w := emit w (.platformRepoExistsOp owner repoName)
  match env.repoExistsResult with
  | .error e => (.error e, w)
  | .ok true =>
    let w := emit w (.platformGetRepoOp owner repoName)
    match env.getRepoResult with
    | .error e => (.error e, w)
    | .ok info => bindE (addRemoteIfNotExists info.cloneUrl w) fun _ w => (.ok info, w)
  | .ok false =>
    let rw : Except FlowError RepoInfo × W :=
      match repoType with
      | .user => (env.createUserRepoResult, emit w (.platformCreateUserRepoOp repoName))
      | .org => (env.createOrgRepoResult, emit w (.platformCreateOrgRepoOp owner repoName))
    match rw with
    | (.error e, w) => (.error e, w)
    | (.ok info, w) => bindE (addRemoteIfNotExists info.cloneUrl w) fun _ w => (.ok info, w)

/-- RemoteManager.push to origin. -/
def remotePush (env : Env) (branch : String) (w : W) : Except FlowError Unit × W :=
  pushStep env "origin" branch [] w

/-- pushAndSetUpstream. -/
def pushAndSetUpstream (env : Env) (branch : String) (w : W) : Except FlowError Unit × W :=
  pushStep env "origin" branch ["--set-upstream"] w

/-- createAndPushTag: create the tag, then push all tags. -/
def createAndPushTag (env : Env) (tagName : String) (message : String) (w : W) :
    Except FlowError Unit × W :=
  bindE (createTagStep tagName (some message) w) fun _ w =>
  bindE (pushTagsStep env "origin" w) fun _ w => (.ok (), w)

/-- syncMainBranch: check the main branch out and pull it. -/
def syncMainBranch (env : Env) (mainB : String) (w : W) : Except FlowError Unit × W :=
  bindE (checkoutStep mainB w) fun _ w =>
  bindE (pullStep env "origin" mainB w) fun _ w => (.ok (), w)

/-! ### Release configuration (constants.ts RELEASE_CONFIG and the release
categorisation constants) -/

/-- The release flags present in the source constants: releases are created,
with a custom body, and creation failures never abort the publish phase. -/
def RELEASE_ENABLED : Bool := true

/-- RELEASE_CONFIG.USE_CUSTOM_BODY. -/
def RELEASE_USE_CUSTOM_BODY : Bool := true

/-- RELEASE_CONFIG.SKIP_ON_ERROR. -/
def RELEASE_SKIP_ON_ERROR : Bool := true

/-- RELEASE_CONFIG.PRERELEASE_PATTERN: a dash followed by one of the
prerelease markers, case-insensitively. -/
def prereleaseTest (version : String) : Bool :=
  let lower := String.mk (version.data.map Char.toLower)
  strContains lower "-alpha" || strContains lower "-beta" ||
  strContains lower "-rc" || strContains lower "-pre"

/-- Modelled from the spec: the release-notes categorisation constants
(RELEASE_CONFIG.FALLBACK_TO_AUTO, RELEASE_CONFIG.MIN_COMMITS_FOR_CUSTOM,
RELEASE_CONFIG.SMART_CATEGORIZATION, RELEASE_CONFIG.STRICT_CONVENTIONAL_COMMITS
and SMART_CATEGORIZATION_KEYWORDS) are imported by git-flow.ts but their
defining constants file is not part of the sources; per the specification the
minimum count of conventionally-recognised commits is a configurable
threshold below which generation falls back to the platform's automatic
notes, and smart categorisation matches per-category keyword lists. -/
structure ReleaseBodyConfig where
  fallbackToAuto : Bool
  minCommitsForCustom : Nat
  smartCategorization : Bool
  strictConventionalCommits : Bool
  breakingKeywords : List String
  featuresKeywords : List String
  fixesKeywords : List String
  docsKeywords : List String
  choresKeywords : List String

/-! ### Release body generation (git-flow.ts generateReleaseBody) -/

/-- The first line of a commit message. -/
def firstLine (s : String) : String :=
  String.mk (breakAt '\n' s.data).1

/-- The short (seven character) commit hash. -/
def shortHash (s : String) : String := String.mk (s.data.take 7)

/-- Strip a conventional-commit marker of the given kind from a message: the
kind word, an optional parenthesised scope, a colon and any following
whitespace; a message that does not complete the pattern is left unchanged,
exactly as the source regex replace behaves. -/
def stripConvMarker (kind : String) (msg : String) : String :=
  match isPrefixOfC kind.data msg.data, msg.data.drop kind.data.length with
  | true, ':' :: rest => String.mk (rest.dropWhile Char.isWhitespace)
  | true, '(' :: rest =>
    (match breakAt ')' rest with
     | (_, some (':' :: tail)) => String.mk (tail.dropWhile Char.isWhitespace)
     | _ => msg)
  | _, _ => msg

/-- Whether a message carries the conventional marker of a kind: the kind
followed by a colon or an opening parenthesis. -/
def hasConvMarker (kind : String) (msg : String) : Bool :=
  strStartsWith msg (kind ++ ":") || strStartsWith msg (kind ++ "(")

/-- The lower-cased message used for keyword matching. -/
def lowerStr (s : String) : String := String.mk (s.data.map Char.toLower)

/-- Whether any keyword of a list occurs in the lower-cased message. -/
def matchesKeywords (keywords : List String) (lowerMessage : String) : Bool :=
  keywords.any fun k => strContains lowerMessage k

/-- The six buckets the generator fills, in source order, together with the
count of conventionally recognised commits. -/
structure ReleaseBuckets where
  breaking : List String
  features : List String
  fixes : List String
  docs : List String
  chores : List String
  others : List String
  conventionalCount : Nat
deriving DecidableEq

/-- Categorise one commit into the buckets, mirroring the classification
cascade of the source: a BREAKING CHANGE body marker, then the four
conventional prefixes, then optional smart keyword matching, and otherwise
the other bucket. -/
def categorizeCommit (cfg : ReleaseBodyConfig) (b : ReleaseBuckets) (c : CommitEntry) :
    ReleaseBuckets :=
  let message := firstLine c.message
  let hash := shortHash c.hash
  if strContains c.body "BREAKING CHANGE" then
    { b with breaking := b.breaking ++ ["- " ++ message ++ " (" ++ hash ++ ")"],
             conventionalCount := b.conventionalCount + 1 }
  else if hasConvMarker "feat" message then
    { b with features := b.features ++ ["- " ++ stripConvMarker "feat" message ++ " (" ++ hash ++ ")"],
             conventionalCount := b.conventionalCount + 1 }
  else if hasConvMarker "fix" message then
    { b with fixes := b.fixes ++ ["- " ++ stripConvMarker "fix" message ++ " (" ++ hash ++ ")"],
             conventionalCount := b.conventionalCount + 1 }
  else if hasConvMarker "docs" message then
    { b with docs := b.docs ++ ["- " ++ stripConvMarker "docs" message ++ " (" ++ hash ++ ")"],
             conventionalCount := b.conventionalCount + 1 }
  else if hasConvMarker "chore" message then
    { b with chores := b.chores ++ ["- " ++ stripConvMarker "chore" message ++ " (" ++ hash ++ ")"],
             conventionalCount := b.conventionalCount + 1 }
  else if cfg.smartCategorization then
    let lowerMessage := lowerStr message
    if matchesKeywords cfg.breakingKeywords lowerMessage then
      { b with breaking := b.breaking ++ ["- " ++ message ++ " (" ++ hash ++ ") 🤖"] }
    else if matchesKeywords cfg.featuresKeywords lowerMessage then
      { b with features := b.features ++ ["- " ++ message ++ " (" ++ hash ++ ") 🤖"] }
    else if matchesKeywords cfg.fixesKeywords lowerMessage then
      { b with fixes := b.fixes ++ ["- " ++ message ++ " (" ++ hash ++ ") 🤖"] }
    else if matchesKeywords cfg.docsKeywords lowerMessage then
      { b with docs := b.docs ++ ["- " ++ message ++ " (" ++ hash ++ ") 🤖"] }
    else if matchesKeywords cfg.choresKeywords lowerMessage then
      { b with chores := b.chores ++ ["- " ++ message ++ " (" ++ hash ++ ") 🤖"] }
    else { b with others := b.others ++ ["- " ++ message ++ " (" ++ hash ++ ")"] }
  else { b with others := b.others ++ ["- " ++ message ++ " (" ++ hash ++ ")"] }

/-- The empty buckets. -/
def emptyBuckets : ReleaseBuckets := ⟨[], [], [], [], [], [], 0⟩

/-- One markdown section of the release body. -/
def bucketSection (title : String) (entries : List String) : String :=
  if entries.isEmpty then ""
  else title ++ "\n\n" ++ String.intercalate "\n" entries ++ "\n\n"

/-- generateReleaseBody as a pure function of the retrieved log: an absent or
empty log yields the empty fallback, the commits are categorised, a
conventional count below the configured minimum yields the empty fallback,
and otherwise the non-empty sections are rendered in source order with the
optional smart-categorisation note and compare link. -/
def generateReleaseBody (cfg : ReleaseBodyConfig) (logResult : Option (List CommitEntry))
    (previousVersion : Option String) (currentVersion : String) (owner repo : String) :
    String :=
  match logResult with
  | none => ""
  | some log =>
    if log.isEmpty then ""
    else
      let b := log.foldl (categorizeCommit cfg) emptyBuckets
      if cfg.fallbackToAuto && b.conventionalCount < cfg.minCommitsForCustom then ""
      else
        let smartUsed :=
          cfg.smartCategorization &&
          decide ((b.others.length : Int) < (log.length : Int) - (b.conventionalCount : Int))
        let body :=
          bucketSection "## 💥 Breaking Changes" b.breaking ++
          bucketSection "## ✨ New Features" b.features ++
          bucketSection "## 🐛 Bug Fixes" b.fixes ++
          bucketSection "## 📚 Documentation" b.docs ++
          bucketSection "## 🔧 Chores & Maintenance" b.chores ++
          (if !b.others.isEmpty && !cfg.strictConventionalCommits then
            bucketSection "## 📝 Other Changes" b.others
          else "") ++
          (if smartUsed then "> 🤖 标记表示通过智能关键词匹配自动分类的提交\n\n" else "") ++
          (match previousVersion with
           | some prev =>
             "---\n\n**Full Changelog**: https://github.com/" ++ owner ++ "/" ++ repo ++
             "/compare/" ++ prev ++ "..." ++ currentVersion
           | none => "")
        body.trim

/-! ### GitFlow orchestrator (git-flow.ts).  The orchestrator owns a fresh
VersionManager (constructed with no options) and managers with the default
main, develop and origin names. -/

/-- The publish options: an explicit version or an increment kind. -/
structure PublishOptions where
  version : Option String
  versionType : Option VersionType

/-- COMMIT_MESSAGES.DEFAULT. -/
def DEFAULT_COMMIT_MESSAGE : String := "chore: update"

/-- GitFlow.commit (the no-version commit phase): warn on stash content,
fail fast on conflicts, stage and commit pending changes, ensure the develop
branch, best-effort merge the main branch into it, and push it upstream; the
develop branch name is returned. -/
def GitFlow.commit (env : Env) (message : String) (w : W) : Except FlowError String × W :=
  let r1 := stashListStep w
  let r2 := hasConflictsStep r1.2
  if r2.1 then (.error (.thrown CONFLICTS_EXIST_MSG), r2.2)
  else
    let r3 := hasUncommittedStep r2.2
    let w :=
      if r3.1 then
        commitStep (if message = "" then DEFAULT_COMMIT_MESSAGE else message)
          (addStep "." r3.2)
      else r3.2
    bindE (createDevelopBranch none none w) fun developBranch w =>
    let w :=
      match syncMainBranch env mainBranchName w with
      | (.error _, w) => w
      | (.ok _, w) =>
        match mergeFromMain env ["--no-ff"] w with
        | (_, w) => w
    bindE (pushAndSetUpstream env developBranch w) fun _ w =>
    (.ok developBranch, w)

/-- Step 1 of publish: resolve the version to tag.  An explicit version is
set (and may throw); otherwise the latest valid tag is adopted and the
requested increment (patch by default) is applied. -/
def resolvePublishVersion (vm : VersionManager) (opts : Option PublishOptions) (w : W) :
    Except FlowError VersionManager × W :=
  let optVersion := match opts with | none => none | some o => o.version
  let optType := match opts with | none => none | some o => o.versionType
  match optVersion with
  | some v =>
    (match vm.setCurrentVersion v with
     | .error e => (.error e, w)
     | .ok vm1 => (.ok vm1, w))
  | none =>
    let r := getTagsStep w
    match vm.suggestNextVersion r.1 with
    | .error e => (.error e, r.2)
    | .ok (_, vm1) =>
      match (match optType with
             | some t => vm1.incrementVersion t
             | none => vm1.incrementPatch) with
      | .error e => (.error e, r.2)
      | .ok (_, vm2) => (.ok vm2, r.2)

/-- Step 2 of publish: locate the develop branch to release.  The current
branch wins when it is a develop branch; otherwise the first matching local
branch, then the first matching remote branch (checked out locally); absence
is the fatal missing-develop error. -/
def locateDevelopBranch (env : Env) (w : W) : Except FlowError String × W :=
  let rc := getCurrentBranchStep w
  let rd := isOnDevelopBranch rc.2
  if rd.1 then (.ok rc.1, rd.2)
  else
    let rb := getBranchesStep rd.2
    let developBranches := rb.1.1.filter fun b =>
      strStartsWith b "develop/" || b == developBranchName
    if developBranches.isEmpty then
      let remoteDevelopBranches :=
        (rb.1.2.1.filter fun b => strContains b developBranchName).map stripRemotesPre
      match remoteDevelopBranches with
      | [] => (.error (.thrown NO_DEVELOP_BRANCH_MSG), rb.2)
      | db :: _ =>
        bindE (checkoutFromRemoteStep env db ("origin/" ++ db) rb.2) fun _ w =>
        (.ok db, w)
    else
      let db := developBranches.headD ""
      bindE (checkoutStep db rb.2) fun _ w => (.ok db, w)

/-- getRepoInfo: the owner from the home login configuration and the
repository name parsed from the origin remote URL, with the working
directory name as fallback. -/
def getRepoInfo (env : Env) (w : W) : Except FlowError (String × String) × W :=
  let w := emit w (.readConfigOp ".git_login")
  match env.loginOwner with
  | none => (.error (.thrown "无法获取仓库所有者信息"), w)
  | some owner =>
    let rr := getRemotesStep w
    match rr.1.find? (fun p => p.1 == "origin") with
    | none => (.error (.thrown "无法找到 origin 远程仓库"), rr.2)
    | some pr =>
      match parseRepoFromUrl pr.2 with
      | some repo => (.ok (owner, repo), rr.2)
      | none =>
        if env.cwdName != "" then (.ok (owner, env.cwdName), rr.2)
        else (.error (.thrown "无法解析仓库名称"), rr.2)

/-- createGitHubRelease: best-effort release creation.  Everything is inside
a try whose failure is only logged because skip-on-error is set, so the
operation never throws; the previous tag is looked up (its failure is
ignored), the custom body is generated from the log, and the release is
created. -/
def createGitHubRelease (env : Env) (cfg : ReleaseBodyConfig) (version : String) (w : W) : W :=
  match getRepoInfo env w with
  | (.error _, w) => w
  | (.ok (owner, repo), w) =>
    let previousTagName : Option String :=
      match env.latestReleaseTag with
      | .error _ => none
      | .ok t => t
    let w := emit w (.platformGetLatestReleaseOp owner repo)
    let w := if RELEASE_USE_CUSTOM_BODY then emit w .gitLogOp else w
    let _customBody :=
      if RELEASE_USE_CUSTOM_BODY then
        generateReleaseBody cfg env.logResult previousTagName version owner repo
      else ""
    emit w (.platformCreateReleaseOp owner repo version)

/-- ensureMainAsDefaultBranch: read the owner and repository name and ask the
platform to make main the default branch; every failure only logs, so the
operation never throws. -/
def ensureMainAsDefaultBranch (env : Env) (w : W) : W :=
  let w := emit w (.readConfigOp ".git_login")
  match env.loginOwner with
  | none => w
  | some owner =>
    let rr := getRemotesStep w
    let repoName :=
      match rr.1.find? (fun p => p.1 == "origin") with
      | some pr => match parseRepoFromUrl pr.2 with | some r => r | none => ""
      | none => ""
    let repoName := if repoName = "" then env.cwdName else repoName
    if repoName = "" then rr.2
    else emit rr.2 (.platformUpdateDefaultBranchOp owner repoName mainBranchName)

/-- GitFlow.publish: resolve the version, locate the develop branch, merge
it into main, create and push the tag, push main, best-effort create the
release and update the default branch, and delete the develop branch. -/
def GitFlow.publish (env : Env) (cfg : ReleaseBodyConfig) (opts : Option PublishOptions)
    (w : W) : Except FlowError Unit × W :=
  let vm0 := VersionManager.make none none
  bindE (resolvePublishVersion vm0 opts w) fun vm w =>
  let formattedVersion := vm.getFormattedVersion
  bindE (locateDevelopBranch env w) fun developBranch w =>
  bindE (checkoutMain w) fun _ w =>
  bindE (mergeStep env developBranch ["--no-ff"] w) fun _ w =>
  bindE (createAndPushTag env formattedVersion ("Release " ++ formattedVersion) w) fun _ w =>
  bindE (remotePush env mainBranchName w) fun _ w =>
  let w := if RELEASE_ENABLED then createGitHubRelease env cfg formattedVersion w else w
  let w := ensureMainAsDefaultBranch env w
  let w := deleteBranchBoth env developBranch w
  (.ok (), w)

/-! ### Phase 1: repository initialisation (git-flow.ts initRepository) -/

/-- The options of the repository-initialisation phase. -/
structure RepoInitOptions where
  repoName : String
  repoType : RepoType
  owner : String
deriving DecidableEq

/-- checkExistingRepo: detect a directory that is already a configured git
repository (the result only drives warnings). -/
def checkExistingRepo (w : W) : Bool × W :=
  let r := isRepoStep w
  if r.1 then
    let rr := getRemotesStep r.2
    (!rr.1.isEmpty, rr.2)
  else (false, r.2)

/-- createGitignoreIfNotExists: the ignore file is written only when
absent. -/
def createGitignoreIfNotExists (w : W) : W :=
  let w := emit w (.accessOp ".gitignore")
  if w.st.gitignoreExists then w
  else
    let w := emit w (.writeFileOp ".gitignore")
    { w with st.gitignoreExists := true }

/-- createReleaseYmlIfNotExists: the categorisation manifest is written only
when absent. -/
def createReleaseYmlIfNotExists (w : W) : W :=
  let w := emit w (.accessOp ".github/release.yml")
  if w.st.releaseYmlExists then w
  else
    let w := emit w (.mkdirOp ".github")
    let w := emit w (.writeFileOp ".github/release.yml")
    { w with st.releaseYmlExists := true }

/-- GitFlow.initRepository: warn about an existing repository, persist the
platform, owner-kind and login selections, bootstrap the remote repository,
and write the default ignore and release-notes files when absent. -/
def GitFlow.initRepository (env : Env) (opts : RepoInitOptions) (w : W) :
    Except FlowError RepoInfo × W :=
  let rc := checkExistingRepo w
  let w := rc.2
  let w := emit w (.writeConfigOp ".git_platform")
  let w := emit w (.writeConfigOp ".git_own")
  let w := emit w (.writeConfigOp ".git_login")
  bindE (initRemote env opts.repoName opts.repoType opts.owner w) fun repoInfo w =>
  let w := createGitignoreIfNotExists w
  let w := createReleaseYmlIfNotExists w
  (.ok repoInfo, w)

/-! ### The conventional-commit predicate counted by the generator -/

/-- A commit the release-notes generator counts as conventionally
recognised: a BREAKING CHANGE body marker, or one of the four conventional
first-line markers (with an optional parenthesised scope). -/
def isConventionalCommit (c : CommitEntry) : Bool :=
  strContains c.body "BREAKING CHANGE" ||
  hasConvMarker "feat" (firstLine c.message) ||
  hasConvMarker "fix" (firstLine c.message) ||
  hasConvMarker "docs" (firstLine c.message) ||
  hasConvMarker "chore" (firstLine c.message)

/-! ### Concrete sample inputs, used to evaluate the development on closed
values -/

/-- A concrete remote-repository descriptor. -/
def sampleRepoInfo : RepoInfo :=
  ⟨"demo", "me/demo", "https://github.com/me/demo",
   "git@github.com:me/demo.git", "https://github.com/me/demo.git", "main", false⟩

/-- A concrete environment in which the remote repository exists and every
network call succeeds. -/
def sampleEnv : Env :=
  ⟨.ok true, .ok sampleRepoInfo, .ok sampleRepoInfo, .ok sampleRepoInfo,
   true, true, true, true, true, true, some "me", .ok none, true, none, "demo"⟩

/-- A concrete release-notes configuration requiring three conventional
commits. -/
def sampleCfg : ReleaseBodyConfig :=
  ⟨true, 3, true, false, ["breaking"], ["add"], ["fix"], ["doc"], ["clean"]⟩

/-- A concrete repository state on main with a configured origin remote and
no develop branch anywhere. -/
def sampleState : RepoState :=
  ⟨"main", ["main"], false, false, 0, [],
   [("origin", "https://github.com/me/demo.git")], true, true, true⟩

/-- The sample state with conflicted files present. -/
def conflictedState : RepoState :=
  ⟨"main", ["main"], true, false, 0, [],
   [("origin", "https://github.com/me/demo.git")], true, true, true⟩

/-- A state whose develop branch exists only as the remote-tracking entry of
the branch -a listing. -/
def remoteDevelopState : RepoState :=
  ⟨"main", ["main", "remotes/origin/develop"], false, false, 0, [], [], true,
   true, true⟩

/-- Concrete repository-initialisation options. -/
def sampleInitOptions : RepoInitOptions := ⟨"demo", .user, "me"⟩

/-! ## Theorems -/

/-! ### Ordering helpers -/

theorem ordThen_swap (o₁ o₂ : Ordering) : (o₁.then o₂).swap = o₁.swap.then o₂.swap := by
  cases o₁ <;> cases o₂ <;> rfl

theorem ordSwap_inj {o₁ o₂ : Ordering} (h : o₁.swap = o₂.swap) : o₁ = o₂ := by
  cases o₁ <;> cases o₂ <;> first | rfl | exact absurd h (by decide)

theorem ordThen_eq_eq {o₁ o₂ : Ordering} : o₁.then o₂ = .eq ↔ o₁ = .eq ∧ o₂ = .eq := by
  cases o₁ <;> cases o₂ <;> decide

theorem ordThen_eq_lt {o₁ o₂ : Ordering} :
    o₁.then o₂ = .lt ↔ o₁ = .lt ∨ (o₁ = .eq ∧ o₂ = .lt) := by
  cases o₁ <;> cases o₂ <;> decide

theorem ordToInt_swap (o : Ordering) : ordToInt o.swap = -ordToInt o := by
  cases o <;> rfl

theorem ordToInt_nonpos {o : Ordering} : ordToInt o ≤ 0 ↔ o ≠ .gt := by
  cases o <;> decide

/-! ### The comparator laws -/

theorem cmpNat_lt_iff {a b : Nat} : cmpNat a b = .lt ↔ a < b := by
  unfold cmpNat
  split
  · next h => exact iff_of_true rfl h
  · next h =>
    split
    · next h2 => exact iff_of_false (by decide) (by omega)
    · next h2 => exact iff_of_false (by decide) h

theorem cmpNat_eq_iff {a b : Nat} : cmpNat a b = .eq ↔ a = b := by
  unfold cmpNat
  split
  · next h => exact iff_of_false (by decide) (by omega)
  · next h =>
    split
    · next h2 => exact iff_of_true rfl h2
    · next h2 => exact iff_of_false (by decide) h2

theorem cmpNat_gt_iff {a b : Nat} : cmpNat a b = .gt ↔ b < a := by
  unfold cmpNat
  split
  · next h => exact iff_of_false (by decide) (by omega)
  · next h =>
    split
    · next h2 => exact iff_of_false (by decide) (by omega)
    · next h2 => exact iff_of_true rfl (by omega)

theorem cmpLawsNat : CmpLaws cmpNat := by
  refine ⟨?_, ?_, ?_⟩
  · intro a b
    rcases Nat.lt_trichotomy a b with h | h | h
    · rw [cmpNat_lt_iff.mpr h, (by rw [cmpNat_gt_iff]; exact h : cmpNat b a = .gt)]; rfl
    · rw [cmpNat_eq_iff.mpr h, cmpNat_eq_iff.mpr h.symm]; rfl
    · rw [cmpNat_gt_iff.mpr h, cmpNat_lt_iff.mpr h]; rfl
  · intro a b d h
    rw [cmpNat_eq_iff.mp h]
  · intro a b d h1 h2
    rw [cmpNat_lt_iff] at *
    omega

theorem CmpLaws.refl_eq {c : α → α → Ordering} (h : CmpLaws c) (a : α) : c a a = .eq := by
  have hs := h.swap a a
  cases hc : c a a <;> rw [hc] at hs <;> first | rfl | exact absurd hs (by decide)

theorem CmpLaws.eq_symm {c : α → α → Ordering} (h : CmpLaws c) {a b : α}
    (hab : c a b = .eq) : c b a = .eq := by
  have hs := h.swap b a
  rw [hab] at hs
  exact hs

theorem CmpLaws.lt_to_gt {c : α → α → Ordering} (h : CmpLaws c) {a b : α}
    (hab : c a b = .lt) : c b a = .gt := by
  have hs := h.swap b a
  rw [hab] at hs
  exact hs

theorem CmpLaws.gt_to_lt {c : α → α → Ordering} (h : CmpLaws c) {a b : α}
    (hab : c a b = .gt) : c b a = .lt := by
  have hs := h.swap b a
  rw [hab] at hs
  exact hs

theorem CmpLaws.eq_congr_right {c : α → α → Ordering} (h : CmpLaws c) {a b : α} (d : α)
    (hab : c a b = .eq) : c d a = c d b := by
  have h1 := h.eq_congr a b d hab
  have h2 := h.swap d a
  have h3 := h.swap d b
  rw [h2, h3]
  rw [h1]

theorem CmpLaws.le_trans' {c : α → α → Ordering} (h : CmpLaws c) {a b d : α}
    (hab : c a b ≠ .gt) (hbd : c b d ≠ .gt) : c a d ≠ .gt := by
  cases hab' : c a b with
  | gt => exact absurd hab' hab
  | eq => rw [h.eq_congr a b d hab']; exact hbd
  | lt =>
    cases hbd' : c b d with
    | gt => exact absurd hbd' hbd
    | lt => rw [h.lt_trans a b d hab' hbd']; decide
    | eq =>
      rw [h.eq_congr_right a (h.eq_symm hbd')]
      rw [hab']
      decide

theorem CmpLaws.cmpBy_laws {c : β → β → Ordering} (f : α → β) (h : CmpLaws c) :
    CmpLaws (cmpBy f c) := by
  refine ⟨?_, ?_, ?_⟩
  · intro a b; exact h.swap (f a) (f b)
  · intro a b d hab; exact h.eq_congr (f a) (f b) (f d) hab
  · intro a b d hab hbd; exact h.lt_trans (f a) (f b) (f d) hab hbd

theorem CmpLaws.cmpThen_laws {c₁ c₂ : α → α → Ordering}
    (h₁ : CmpLaws c₁) (h₂ : CmpLaws c₂) : CmpLaws (cmpThen c₁ c₂) := by
  refine ⟨?_, ?_, ?_⟩
  · intro a b
    unfold cmpThen
    rw [ordThen_swap, ← h₁.swap, ← h₂.swap]
  · intro a b d hab
    unfold cmpThen at *
    rw [ordThen_eq_eq] at hab
    rw [h₁.eq_congr a b d hab.1, h₂.eq_congr a b d hab.2]
  · intro a b d hab hbd
    unfold cmpThen at *
    rw [ordThen_eq_lt] at *
    rcases hab with h1 | ⟨h1, h2⟩
    · rcases hbd with g1 | ⟨g1, g2⟩
      · exact Or.inl (h₁.lt_trans a b d h1 g1)
      · refine Or.inl ?_
        rw [h₁.eq_congr_right a (h₁.eq_symm g1)]
        exact h1
    · rcases hbd with g1 | ⟨g1, g2⟩
      · refine Or.inl ?_
        rw [h₁.eq_congr a b d h1]
        exact g1
      · refine Or.inr ⟨?_, ?_⟩
        · rw [h₁.eq_congr a b d h1]; exact g1
        · exact h₂.lt_trans a b d h2 g2

theorem cmpLex_laws {c : α → α → Ordering} (h : CmpLaws c) : CmpLaws (cmpLex c) := by
  refine ⟨?_, ?_, ?_⟩
  · intro a
    induction a with
    | nil => intro b; cases b <;> rfl
    | cons x xs ih =>
      intro b
      cases b with
      | nil => rfl
      | cons y ys =>
        show (c x y).then (cmpLex c xs ys) = ((c y x).then (cmpLex c ys xs)).swap
        rw [ordThen_swap, ← h.swap, ← ih ys]
  · intro a
    induction a with
    | nil =>
      intro b d hab
      cases b with
      | nil => rfl
      | cons y ys => exact absurd hab (by simp [cmpLex])
    | cons x xs ih =>
      intro b d hab
      cases b with
      | nil => exact absurd hab (by simp [cmpLex])
      | cons y ys =>
        have hab' : (c x y).then (cmpLex c xs ys) = .eq := hab
        rw [ordThen_eq_eq] at hab'
        cases d with
        | nil => rfl
        | cons z zs =>
          show (c x z).then (cmpLex c xs zs) = (c y z).then (cmpLex c ys zs)
          rw [h.eq_congr x y z hab'.1, ih ys zs hab'.2]
  · intro a
    induction a with
    | nil =>
      intro b d hab hbd
      cases b with
      | nil => exact absurd hab (by simp [cmpLex])
      | cons y ys =>
        cases d with
        | nil => exact absurd hbd (by simp [cmpLex])
        | cons z zs => rfl
    | cons x xs ih =>
      intro b d hab hbd
      cases b with
      | nil => exact absurd hab (by simp [cmpLex])
      | cons y ys =>
        cases d with
        | nil => exact absurd hbd (by simp [cmpLex])
        | cons z zs =>
          have hab' : (c x y).then (cmpLex c xs ys) = .lt := hab
          have hbd' : (c y z).then (cmpLex c ys zs) = .lt := hbd
          rw [ordThen_eq_lt] at hab' hbd'
          show (c x z).then (cmpLex c xs zs) = .lt
          rw [ordThen_eq_lt]
          rcases hab' with h1 | ⟨h1, h2⟩
          · rcases hbd' with g1 | ⟨g1, g2⟩
            · exact Or.inl (h.lt_trans x y z h1 g1)
            · refine Or.inl ?_
              rw [h.eq_congr_right x (h.eq_symm g1)]
              exact h1
          · rcases hbd' with g1 | ⟨g1, g2⟩
            · refine Or.inl ?_
              rw [h.eq_congr x y z h1]
              exact g1
            · exact Or.inr ⟨by rw [h.eq_congr x y z h1]; exact g1, ih ys zs h2 g2⟩

theorem cmpLawsChar : CmpLaws cmpChar := by
  refine ⟨?_, ?_, ?_⟩
  · intro a b; exact cmpLawsNat.swap a.toNat b.toNat
  · intro a b d hab; exact cmpLawsNat.eq_congr a.toNat b.toNat d.toNat hab
  · intro a b d hab hbd; exact cmpLawsNat.lt_trans a.toNat b.toNat d.toNat hab hbd

theorem cmpLawsIdent : CmpLaws cmpIdent := by
  have hc := cmpLex_laws cmpLawsChar
  refine ⟨?_, ?_, ?_⟩
  · intro a b
    cases a <;> cases b <;> first
      | exact cmpLawsNat.swap _ _
      | exact hc.swap _ _
      | rfl
  · intro a b d hab
    cases a with
    | num n =>
      cases b with
      | num m =>
        have : n = m := cmpNat_eq_iff.mp hab
        subst this
        rfl
      | alpha t => exact absurd hab (by simp [cmpIdent])
    | alpha s =>
      cases b with
      | num m => exact absurd hab (by simp [cmpIdent])
      | alpha t =>
        cases d with
        | num k => rfl
        | alpha u => exact hc.eq_congr s t u hab
  · intro a b d hab hbd
    cases a with
    | num n =>
      cases b with
      | num m =>
        cases d with
        | num k => exact cmpLawsNat.lt_trans n m k hab hbd
        | alpha u => rfl
      | alpha t =>
        cases d with
        | num k => exact absurd hbd (by simp [cmpIdent])
        | alpha u => rfl
    | alpha s =>
      cases b with
      | num m => exact absurd hab (by simp [cmpIdent])
      | alpha t =>
        cases d with
        | num k => exact absurd hbd (by simp [cmpIdent])
        | alpha u => exact hc.lt_trans s t u hab hbd

theorem cmpLawsPre : CmpLaws cmpPre := by
  have hi := cmpLex_laws cmpLawsIdent
  refine ⟨?_, ?_, ?_⟩
  · intro a b
    cases a <;> cases b <;> first
      | rfl
      | exact hi.swap _ _
  · intro a b d hab
    cases a with
    | nil =>
      cases b with
      | nil => rfl
      | cons y ys => exact absurd hab (by simp [cmpPre])
    | cons x xs =>
      cases b with
      | nil => exact absurd hab (by simp [cmpPre])
      | cons y ys =>
        cases d with
        | nil => rfl
        | cons z zs => exact hi.eq_congr (x :: xs) (y :: ys) (z :: zs) hab
  · intro a b d hab hbd
    cases a with
    | nil =>
      cases b with
      | nil => exact absurd hab (by simp [cmpPre])
      | cons y ys => exact absurd hab (by simp [cmpPre])
    | cons x xs =>
      cases b with
      | nil => exact absurd hbd (by cases d <;> simp [cmpPre])
      | cons y ys =>
        cases d with
        | nil => rfl
        | cons z zs => exact hi.lt_trans (x :: xs) (y :: ys) (z :: zs) hab hbd

theorem cmpLawsVer : CmpLaws cmpVer :=
  CmpLaws.cmpThen_laws (CmpLaws.cmpBy_laws SemVer.major cmpLawsNat)
    (CmpLaws.cmpThen_laws (CmpLaws.cmpBy_laws SemVer.minor cmpLawsNat)
      (CmpLaws.cmpThen_laws (CmpLaws.cmpBy_laws SemVer.patch cmpLawsNat)
        (CmpLaws.cmpBy_laws SemVer.pre cmpLawsPre)))

/-! ### Decimal digits and rendering -/

theorem digitChar_toNat {n : Nat} (h : n < 10) : (digitChar n).toNat = 48 + n := by
  interval_cases n <;> decide

theorem digitVal_digitChar {n : Nat} (h : n < 10) : digitVal (digitChar n) = n := by
  interval_cases n <;> decide

theorem isDigitC_digitChar {n : Nat} (h : n < 10) : isDigitC (digitChar n) = true := by
  interval_cases n <;> decide

theorem isNonZeroDigitC_digitChar {n : Nat} (h1 : 1 ≤ n) (h2 : n < 10) :
    isNonZeroDigitC (digitChar n) = true := by
  interval_cases n <;> decide

theorem digitsToNat_snoc (xs : List Char) (d : Char) :
    digitsToNat (xs ++ [d]) = digitsToNat xs * 10 + digitVal d := by
  unfold digitsToNat
  rw [List.foldl_append]
  rfl

theorem natDigitsAux_spec :
    ∀ fuel n, n < fuel →
      (∃ c cs, natDigitsAux fuel n = c :: cs ∧ isDigitC c = true ∧ cs.all isDigitC = true) ∧
      digitsToNat (natDigitsAux fuel n) = n := by
  intro fuel
  induction fuel with
  | zero => intro n h; omega
  | succ f ih =>
    intro n h
    by_cases h10 : n < 10
    · refine ⟨⟨digitChar n, [], ?_, isDigitC_digitChar h10, rfl⟩, ?_⟩
      · simp [natDigitsAux, h10]
      · simp [natDigitsAux, h10, digitsToNat, digitVal_digitChar h10]
    · have hdiv : n / 10 < f := by omega
      obtain ⟨⟨c, cs, hshape, hc, hcs⟩, hval⟩ := ih (n / 10) hdiv
      have hrw : natDigitsAux (f + 1) n = natDigitsAux f (n / 10) ++ [digitChar (n % 10)] := by
        simp [natDigitsAux, h10]
      refine ⟨⟨c, cs ++ [digitChar (n % 10)], ?_, hc, ?_⟩, ?_⟩
      · rw [hrw, hshape]; rfl
      · rw [List.all_append, hcs]
        simp [isDigitC_digitChar (Nat.mod_lt n (by omega))]
      · rw [hrw, digitsToNat_snoc, hval, digitVal_digitChar (Nat.mod_lt n (by omega))]
        omega

theorem natDigitsAux_head_pos :
    ∀ fuel n, n < fuel → 1 ≤ n →
      ∃ c cs, natDigitsAux fuel n = c :: cs ∧ isNonZeroDigitC c = true := by
  intro fuel
  induction fuel with
  | zero => intro n h; omega
  | succ f ih =>
    intro n h h1
    by_cases h10 : n < 10
    · refine ⟨digitChar n, [], ?_, isNonZeroDigitC_digitChar h1 h10⟩
      simp [natDigitsAux, h10]
    · have hdiv : n / 10 < f := by omega
      obtain ⟨c, cs, hshape, hc⟩ := ih (n / 10) hdiv (by omega)
      refine ⟨c, cs ++ [digitChar (n % 10)], ?_, hc⟩
      simp [natDigitsAux, h10, hshape]

theorem natChars_shape (n : Nat) :
    ∃ c cs, natChars n = c :: cs ∧ isDigitC c = true ∧ cs.all isDigitC = true :=
  (natDigitsAux_spec (n + 1) n (by omega)).1

theorem digitsToNat_natChars (n : Nat) : digitsToNat (natChars n) = n :=
  (natDigitsAux_spec (n + 1) n (by omega)).2

theorem natChars_all_digit (n : Nat) : (natChars n).all isDigitC = true := by
  obtain ⟨c, cs, hshape, hc, hcs⟩ := natChars_shape n
  rw [hshape]
  simp [hc, hcs]

theorem isNonZero_isDigit {c : Char} (h : isNonZeroDigitC c = true) : isDigitC c = true := by
  simp only [isNonZeroDigitC, Bool.and_eq_true, decide_eq_true_eq] at h
  simp only [isDigitC, Bool.and_eq_true, decide_eq_true_eq]
  omega

theorem isNumericIdent_natChars (n : Nat) : isNumericIdent (natChars n) = true := by
  by_cases h0 : n = 0
  · subst h0; decide
  · obtain ⟨c, cs, hshape, hc⟩ := natDigitsAux_head_pos (n + 1) n (by omega) (by omega)
    obtain ⟨c', cs', hshape', _, hall⟩ := natChars_shape n
    rw [show natChars n = natDigitsAux (n + 1) n from rfl] at hshape'
    rw [hshape] at hshape'
    obtain ⟨rfl, rfl⟩ : c = c' ∧ cs = cs' := by
      constructor <;> [exact (List.cons.injEq _ _ _ _ ▸ hshape').1;
        exact (List.cons.injEq _ _ _ _ ▸ hshape').2]
    show isNumericIdent (natChars n) = true
    rw [show natChars n = natDigitsAux (n + 1) n from rfl, hshape]
    cases cs with
    | nil => simpa [isNumericIdent] using isNonZero_isDigit hc
    | cons d ds =>
      simp only [isNumericIdent, Bool.and_eq_true]
      constructor
      · exact hc
      · simpa using hall

/-! ### Character classes and list splitting -/

theorem isDigitC_spec {c : Char} (h : isDigitC c = true) :
    48 ≤ c.toNat ∧ c.toNat ≤ 57 := by
  simpa only [isDigitC, Bool.and_eq_true, decide_eq_true_eq] using h

theorem isDigitC_ne_char {c : Char} (h : isDigitC c = true) {d : Char}
    (hd : d.toNat < 48 ∨ 57 < d.toNat) : c ≠ d := by
  intro he
  subst he
  have := isDigitC_spec h
  omega

theorem isDigitC_not_ws {c : Char} (h : isDigitC c = true) : c.isWhitespace = false := by
  have hs := isDigitC_spec h
  unfold Char.isWhitespace
  simp only [Bool.or_eq_false_iff, decide_eq_false_iff_not]
  refine ⟨⟨⟨?_, ?_⟩, ?_⟩, ?_⟩ <;> intro he <;> subst he <;>
    revert hs <;> decide

theorem dot_not_ws : ('.' : Char).isWhitespace = false := by decide

theorem dropWhile_of_head_false {p : Char → Bool} {c : Char} {cs : List Char}
    (h : p c = false) : (c :: cs).dropWhile p = c :: cs := by
  simp [List.dropWhile_cons, h]

theorem dropWhile_all_false {p : α → Bool} :
    ∀ {l : List α}, (∀ c ∈ l, p c = false) → l.dropWhile p = l := by
  intro l h
  induction l with
  | nil => rfl
  | cons c cs ih =>
    rw [List.dropWhile_cons, h c (List.mem_cons_self c cs)]
    simp only [Bool.false_eq_true, if_false]

theorem trimChars_of_all_not_ws {cs : List Char}
    (h : ∀ c ∈ cs, c.isWhitespace = false) : trimChars cs = cs := by
  unfold trimChars
  rw [dropWhile_all_false h, dropWhile_all_false (by
    intro c hc
    exact h c (List.mem_reverse.mp hc)), List.reverse_reverse]

theorem breakAt_of_not_mem {sep : Char} {cs : List Char}
    (h : ∀ c ∈ cs, c ≠ sep) : breakAt sep cs = (cs, none) := by
  induction cs with
  | nil => rfl
  | cons c cs ih =>
    unfold breakAt
    rw [if_neg (h c (List.mem_cons_self c cs))]
    rw [ih fun x hx => h x (List.mem_cons_of_mem c hx)]

theorem splitOnC_ne_nil (sep : Char) (cs : List Char) : splitOnC sep cs ≠ [] := by
  induction cs with
  | nil => simp [splitOnC]
  | cons c cs ih =>
    unfold splitOnC
    split
    · simp
    · split
      · simp
      · simp

theorem splitOnC_of_not_mem {sep : Char} {cs : List Char}
    (h : ∀ c ∈ cs, c ≠ sep) : splitOnC sep cs = [cs] := by
  induction cs with
  | nil => rfl
  | cons c cs ih =>
    unfold splitOnC
    rw [if_neg (h c (List.mem_cons_self c cs))]
    rw [ih fun x hx => h x (List.mem_cons_of_mem c hx)]

theorem splitOnC_append {sep : Char} {a rest : List Char}
    (ha : ∀ c ∈ a, c ≠ sep) :
    splitOnC sep (a ++ sep :: rest) = a :: splitOnC sep rest := by
  induction a with
  | nil =>
    show splitOnC sep (sep :: rest) = [] :: splitOnC sep rest
    conv_lhs => rw [splitOnC]
    rw [if_pos rfl]
  | cons c a' ih =>
    show splitOnC sep (c :: (a' ++ sep :: rest)) = (c :: a') :: splitOnC sep rest
    conv_lhs => rw [splitOnC]
    rw [if_neg (ha c (List.mem_cons_self c a'))]
    rw [ih fun x hx => ha x (List.mem_cons_of_mem c hx)]

/-! ### Parsing the canonical rendering -/

theorem mem_formatCore {M m p : Nat} {c : Char}
    (hc : c ∈ natChars M ++ ('.' :: natChars m) ++ ('.' :: natChars p)) :
    isDigitC c = true ∨ c = '.' := by
  simp only [List.mem_append, List.mem_cons] at hc
  have hdig : ∀ n, c ∈ natChars n → isDigitC c = true := by
    intro n hn
    have := natChars_all_digit n
    rw [List.all_eq_true] at this
    exact this c hn
  rcases hc with (h | rfl | h) | rfl | h
  · exact Or.inl (hdig M h)
  · exact Or.inr rfl
  · exact Or.inl (hdig m h)
  · exact Or.inr rfl
  · exact Or.inl (hdig p h)

theorem parseCore_format (M m p : Nat) :
    parseCore (natChars M ++ ('.' :: natChars m) ++ ('.' :: natChars p)) =
      some ⟨M, m, p, []⟩ := by
  set L := natChars M ++ ('.' :: natChars m) ++ ('.' :: natChars p) with hL
  have hplus : ∀ c ∈ L, c ≠ '+' := by
    intro c hc
    rcases mem_formatCore hc with h | rfl
    · exact isDigitC_ne_char h (by decide)
    · decide
  have hdash : ∀ c ∈ L, c ≠ '-' := by
    intro c hc
    rcases mem_formatCore hc with h | rfl
    · exact isDigitC_ne_char h (by decide)
    · decide
  have hsplit : splitOnC '.' L = [natChars M, natChars m, natChars p] := by
    rw [hL, List.append_assoc]
    have hM : ∀ c ∈ natChars M, c ≠ '.' := by
      intro c hc
      have := natChars_all_digit M
      rw [List.all_eq_true] at this
      exact isDigitC_ne_char (this c hc) (by decide)
    have hm : ∀ c ∈ natChars m, c ≠ '.' := by
      intro c hc
      have := natChars_all_digit m
      rw [List.all_eq_true] at this
      exact isDigitC_ne_char (this c hc) (by decide)
    have hp : ∀ c ∈ natChars p, c ≠ '.' := by
      intro c hc
      have := natChars_all_digit p
      rw [List.all_eq_true] at this
      exact isDigitC_ne_char (this c hc) (by decide)
    rw [show ('.' :: natChars m) ++ ('.' :: natChars p) =
      '.' :: (natChars m ++ '.' :: natChars p) from rfl]
    rw [splitOnC_append hM, splitOnC_append hm, splitOnC_of_not_mem hp]
  unfold parseCore
  rw [breakAt_of_not_mem hplus]
  simp only
  rw [breakAt_of_not_mem hdash]
  simp only [Bool.not_true, Bool.false_eq_true, if_false]
  unfold parseMain
  rw [hsplit]
  simp only [isNumericIdent_natChars, Bool.and_self, if_pos]
  rw [digitsToNat_natChars, digitsToNat_natChars, digitsToNat_natChars]

theorem formatRelease_data (M m p : Nat) :
    (SemVer.format ⟨M, m, p, []⟩).data =
      natChars M ++ ('.' :: natChars m) ++ ('.' :: natChars p) := by
  unfold SemVer.format
  rw [show preChars ([] : List PreId) = [] from rfl, List.append_nil]

theorem parseSemver_formatRelease (M m p : Nat) :
    parseSemver (SemVer.format ⟨M, m, p, []⟩) = some ⟨M, m, p, []⟩ := by
  unfold parseSemver parseChars
  rw [formatRelease_data]
  set L := natChars M ++ ('.' :: natChars m) ++ ('.' :: natChars p) with hL
  have htrim : trimChars L = L := by
    apply trimChars_of_all_not_ws
    intro c hc
    rcases mem_formatCore (hL ▸ hc) with h | rfl
    · exact isDigitC_not_ws h
    · decide
  rw [htrim]
  obtain ⟨c, cs, hshape, hdigit, _⟩ := natChars_shape M
  have hhead : L.head? = some c := by
    rw [hL, hshape]
    rfl
  show parseCore (if L.head? = some 'v' then L.tail else L) = some ⟨M, m, p, []⟩
  rw [if_neg (by
    rw [hhead]
    intro he
    have : c = 'v' := by
      injection he
    exact isDigitC_ne_char hdigit (by decide) this)]
  exact parseCore_format M m p

theorem breakAt_cons_ne {sep c : Char} {cs : List Char} (h : c ≠ sep) :
    breakAt sep (c :: cs) = (c :: (breakAt sep cs).1, (breakAt sep cs).2) := by
  conv_lhs => rw [breakAt]
  rw [if_neg h]

theorem parseMain_some_head {c : Char} {m' : List Char} {r : Nat × Nat × Nat}
    (h : parseMain (c :: m') = some r) : isDigitC c = true := by
  unfold parseMain at h
  by_cases hc : c = '.'
  · subst hc
    rw [show splitOnC '.' ('.' :: m') = [] :: splitOnC '.' m' from by
      conv_lhs => rw [splitOnC]
      rw [if_pos rfl]] at h
    rcases hsp : splitOnC '.' m' with _ | ⟨b, rest⟩
    · exact absurd hsp (splitOnC_ne_nil _ _)
    · rw [hsp] at h
      rcases rest with _ | ⟨d, rest2⟩
      · simp at h
      · rcases rest2 with _ | ⟨e, rest3⟩
        · simp [isNumericIdent] at h
        · simp at h
  · rcases hsp : splitOnC '.' m' with _ | ⟨g, gs⟩
    · exact absurd hsp (splitOnC_ne_nil _ _)
    · rw [show splitOnC '.' (c :: m') = (c :: g) :: gs from by
        conv_lhs => rw [splitOnC]
        rw [if_neg hc, hsp]] at h
      rcases gs with _ | ⟨b, rest⟩
      · simp at h
      · rcases rest with _ | ⟨d, rest2⟩
        · simp at h
        · rcases rest2 with _ | ⟨e, rest3⟩
          · by_cases hni : isNumericIdent (c :: g) = true
            · cases g with
              | nil => simpa [isNumericIdent] using hni
              | cons g0 gs0 =>
                simp only [isNumericIdent, Bool.and_eq_true] at hni
                exact isNonZero_isDigit hni.1
            · rw [Bool.not_eq_true] at hni
              simp [hni] at h
          · simp at h

theorem parseCore_some_head {cs : List Char} {v : SemVer} (h : parseCore cs = some v) :
    ∃ c cs', cs = c :: cs' ∧ isDigitC c = true := by
  cases cs with
  | nil =>
    rw [show parseCore ([] : List Char) = none from rfl] at h
    exact Option.noConfusion h
  | cons c cs' =>
    refine ⟨c, cs', rfl, ?_⟩
    by_cases hplus : c = '+'
    · subst hplus
      have hnone : parseCore ('+' :: cs') = none := by
        unfold parseCore
        rw [show breakAt '+' ('+' :: cs') = ([], some cs') from by
          unfold breakAt
          rw [if_pos rfl]]
        cases hcb : checkBuild cs' <;>
          simp [hcb, parseMain, breakAt, splitOnC]
      rw [hnone] at h
      exact Option.noConfusion h
    · by_cases hdash : c = '-'
      · subst hdash
        have hnone : parseCore ('-' :: cs') = none := by
          unfold parseCore
          rw [breakAt_cons_ne hplus]
          rcases hb : (breakAt '+' cs').2 with _ | bld
          · simp [hb, breakAt, parseMain, splitOnC]
          · cases hcb : checkBuild bld <;>
              simp [hb, hcb, breakAt, parseMain, splitOnC]
        rw [hnone] at h
        exact Option.noConfusion h
      · unfold parseCore at h
        rw [breakAt_cons_ne hplus] at h
        simp only at h
        split at h
        · exact Option.noConfusion h
        · rw [breakAt_cons_ne hdash] at h
          simp only at h
          split at h
          · exact Option.noConfusion h
          · next M m p heq => exact parseMain_some_head heq

/-! ### cleanVersion preserves parsing -/

theorem dropWhile_append_singleton {p : α → Bool} {l : List α} {x : α} (hx : p x = false) :
    (l ++ [x]).dropWhile p =
      if (l.dropWhile p).isEmpty then [x] else l.dropWhile p ++ [x] := by
  induction l with
  | nil => simp [List.dropWhile_cons, hx]
  | cons a l ih =>
    by_cases ha : p a = true
    · simp only [List.cons_append, List.dropWhile_cons, ha, if_true, ih]
    · rw [Bool.not_eq_true] at ha
      simp [List.dropWhile_cons, ha]

theorem rdropWhile_cons_neg {p : α → Bool} {c : α} {t : List α} (hc : p c = false) :
    (c :: t).rdropWhile p = c :: t.rdropWhile p := by
  unfold List.rdropWhile
  rw [List.reverse_cons, dropWhile_append_singleton hc]
  split
  · next he =>
    rw [List.reverse_singleton]
    rw [List.isEmpty_iff] at he
    rw [he]
    rfl
  · rw [List.reverse_append, List.reverse_singleton]
    rfl

theorem trimChars_eq_rdrop (cs : List Char) :
    trimChars cs = (cs.dropWhile Char.isWhitespace).rdropWhile Char.isWhitespace := rfl

theorem trimChars_cons_not_ws {c : Char} {t : List Char} (hc : c.isWhitespace = false) :
    trimChars (c :: t) = c :: t.rdropWhile Char.isWhitespace := by
  rw [trimChars_eq_rdrop, dropWhile_of_head_false hc, rdropWhile_cons_neg hc]

theorem parseSemver_clean {s : String} {v : SemVer} (h : parseSemver s = some v) :
    parseSemver (cleanVersion s) = some v := by
  unfold cleanVersion
  by_cases hv : s.data.head? = some 'v'
  · rw [if_pos hv]
    obtain ⟨t, hst⟩ : ∃ t, s.data = 'v' :: t := by
      cases hsd : s.data with
      | nil => rw [hsd] at hv; exact absurd hv (by simp)
      | cons a t =>
        rw [hsd] at hv
        simp only [List.head?_cons, Option.some.injEq] at hv
        subst hv
        exact ⟨t, rfl⟩
    unfold parseSemver parseChars at h ⊢
    rw [hst] at h
    rw [show (String.mk (s.data.tail)).data = s.data.tail from rfl, hst, List.tail_cons]
    simp only [trimChars_cons_not_ws (show ('v' : Char).isWhitespace = false by decide),
      List.head?_cons] at h
    simp only [if_true, List.tail_cons] at h
    have hcore : parseCore (t.rdropWhile Char.isWhitespace) = some v := h
    obtain ⟨c, t', hshape, hdigit⟩ := parseCore_some_head hcore
    have hpre : t.rdropWhile Char.isWhitespace <+: t := List.rdropWhile_prefix _ t
    rw [hshape] at hpre
    obtain ⟨u, hu⟩ := hpre
    have ht : t = c :: (t' ++ u) := by rw [← hu]; rfl
    have htrim : trimChars t = c :: t' := by
      rw [ht, trimChars_cons_not_ws (isDigitC_not_ws hdigit)]
      have h2 : (c :: (t' ++ u)).rdropWhile Char.isWhitespace = c :: t' := by
        rw [← ht, hshape]
      rw [rdropWhile_cons_neg (isDigitC_not_ws hdigit)] at h2
      exact h2
    show parseCore (if (trimChars t).head? = some 'v' then (trimChars t).tail
      else trimChars t) = some v
    rw [htrim]
    rw [if_neg (by
      intro he
      have hcv : c = 'v' := by injection he
      exact isDigitC_ne_char hdigit (by decide) hcv)]
    rw [← hshape]
    exact hcore
  · rw [if_neg hv]
    exact h

/-! ### Increment is strictly increasing -/

theorem cmpNat_refl (n : Nat) : cmpNat n n = .eq := cmpNat_eq_iff.mpr rfl

theorem cmpVer_unfold (a b : SemVer) :
    cmpVer a b = (cmpNat a.major b.major).then ((cmpNat a.minor b.minor).then
      ((cmpNat a.patch b.patch).then (cmpPre a.pre b.pre))) := rfl

theorem incr_major (v : SemVer) :
    v.incr .major = if v.minor ≠ 0 ∨ v.patch ≠ 0 ∨ v.pre = [] then
      ⟨v.major + 1, 0, 0, []⟩ else ⟨v.major, 0, 0, []⟩ := rfl

theorem incr_minor (v : SemVer) :
    v.incr .minor = if v.patch ≠ 0 ∨ v.pre = [] then
      ⟨v.major, v.minor + 1, 0, []⟩ else ⟨v.major, v.minor, 0, []⟩ := rfl

theorem incr_patch (v : SemVer) :
    v.incr .patch = if v.pre = [] then
      ⟨v.major, v.minor, v.patch + 1, []⟩ else ⟨v.major, v.minor, v.patch, []⟩ := rfl

theorem cmpVer_incr_gt (v : SemVer) (t : VersionType) : cmpVer (v.incr t) v = .gt := by
  cases t with
  | major =>
    rw [incr_major]
    split
    · rw [cmpVer_unfold]
      show ((cmpNat (v.major + 1) v.major).then _) = .gt
      rw [cmpNat_gt_iff.mpr (by omega)]
      rfl
    · next hcond =>
      push_neg at hcond
      obtain ⟨h1, h2, h3⟩ := hcond
      rw [cmpVer_unfold]
      show ((cmpNat v.major v.major).then ((cmpNat 0 v.minor).then
        ((cmpNat 0 v.patch).then (cmpPre [] v.pre)))) = .gt
      rw [h1, h2, cmpNat_refl, cmpNat_refl]
      cases hp : v.pre with
      | nil => exact absurd hp h3
      | cons x xs => rfl
  | minor =>
    rw [incr_minor]
    split
    · rw [cmpVer_unfold]
      show ((cmpNat v.major v.major).then ((cmpNat (v.minor + 1) v.minor).then _)) = .gt
      rw [cmpNat_refl, cmpNat_gt_iff.mpr (by omega)]
      rfl
    · next hcond =>
      push_neg at hcond
      obtain ⟨h2, h3⟩ := hcond
      rw [cmpVer_unfold]
      show ((cmpNat v.major v.major).then ((cmpNat v.minor v.minor).then
        ((cmpNat 0 v.patch).then (cmpPre [] v.pre)))) = .gt
      rw [h2, cmpNat_refl, cmpNat_refl, cmpNat_refl]
      cases hp : v.pre with
      | nil => exact absurd hp h3
      | cons x xs => rfl
  | patch =>
    rw [incr_patch]
    split
    · rw [cmpVer_unfold]
      show ((cmpNat v.major v.major).then ((cmpNat v.minor v.minor).then
        ((cmpNat (v.patch + 1) v.patch).then _))) = .gt
      rw [cmpNat_refl, cmpNat_refl, cmpNat_gt_iff.mpr (by omega)]
      rfl
    · next hcond =>
      rw [cmpVer_unfold]
      show ((cmpNat v.major v.major).then ((cmpNat v.minor v.minor).then
        ((cmpNat v.patch v.patch).then (cmpPre [] v.pre)))) = .gt
      rw [cmpNat_refl, cmpNat_refl, cmpNat_refl]
      cases hp : v.pre with
      | nil => exact absurd hp hcond
      | cons x xs => rfl

theorem incr_pre_nil (v : SemVer) (t : VersionType) : (v.incr t).pre = [] := by
  cases t with
  | major => rw [incr_major]; split <;> rfl
  | minor => rw [incr_minor]; split <;> rfl
  | patch => rw [incr_patch]; split <;> rfl

theorem parseSemver_format_nil {w : SemVer} (hw : w.pre = []) :
    parseSemver (SemVer.format w) = some w := by
  obtain ⟨a, b, c, pre⟩ := w
  simp only at hw
  subst hw
  exact parseSemver_formatRelease a b c

theorem cleanVersion_format_nil {w : SemVer} (hw : w.pre = []) :
    cleanVersion (SemVer.format w) = SemVer.format w := by
  obtain ⟨a, b, c, pre⟩ := w
  simp only at hw
  subst hw
  unfold cleanVersion
  rw [formatRelease_data]
  obtain ⟨ch, cs, hshape, hdigit, _⟩ := natChars_shape a
  rw [if_neg (by
    rw [hshape]
    show (ch :: (cs ++ ('.' :: natChars b) ++ ('.' :: natChars c))).head? ≠ some 'v'
    intro he
    simp only [List.head?_cons, Option.some.injEq] at he
    exact isDigitC_ne_char hdigit (by decide) he)]

theorem incrementVersion_gt {vm : VersionManager} {t : VersionType} {v' : String}
    {vm' : VersionManager} (h : vm.incrementVersion t = .ok (v', vm')) :
    compareVersions v' vm.currentVersion = some 1 ∧ vm'.currentVersion = v' := by
  unfold VersionManager.incrementVersion at h
  rcases hinc : semverInc vm.currentVersion t with _ | nv
  · rw [hinc] at h; exact absurd h (by simp)
  · rw [hinc] at h
    simp only [Except.ok.injEq, Prod.mk.injEq] at h
    obtain ⟨hnv, hvm⟩ := h
    unfold semverInc at hinc
    rcases hp : parseSemver vm.currentVersion with _ | pv
    · rw [hp] at hinc; exact absurd hinc (by simp)
    · rw [hp] at hinc
      simp only [Option.map_some', Option.some.injEq] at hinc
      have hform : v' = (pv.incr t).format := (hinc.trans hnv).symm
      constructor
      · unfold compareVersions semverCompare
        rw [hform, cleanVersion_format_nil (incr_pre_nil pv t),
          parseSemver_format_nil (incr_pre_nil pv t),
          parseSemver_clean hp]
        show some (ordToInt (cmpVer (pv.incr t) pv)) = some 1
        rw [cmpVer_incr_gt]
        rfl
      · rw [← hvm, hnv]

/-! ### The wildcard maximum scan -/

theorem maxSatStep_of_some {acc : Option (String × SemVer)} {p : String × SemVer}
    (h : acc = some p) (v : String) : ∃ q, maxSatStep acc v = some q := by
  unfold maxSatStep
  subst h
  split
  · exact ⟨p, rfl⟩
  · split
    · exact ⟨p, rfl⟩
    · split
      · next he => exact absurd he (by simp)
      · split
        · exact ⟨_, rfl⟩
        · exact ⟨p, rfl⟩

theorem foldl_maxSatStep_some {l : List String} {p : String × SemVer} :
    ∃ q, l.foldl maxSatStep (some p) = some q := by
  induction l generalizing p with
  | nil => exact ⟨p, rfl⟩
  | cons x xs ih =>
    rw [List.foldl_cons]
    obtain ⟨q, hq⟩ := maxSatStep_of_some rfl x
    rw [hq]
    exact ih

theorem maxSatStep_none_eq {v : String} {sv : SemVer}
    (hsv : parseSemver v = some sv) (hpre : sv.pre = []) :
    maxSatStep none v = some (v, sv) := by
  unfold maxSatStep
  rw [hsv]
  simp [hpre]

theorem maxSatStep_some_eq {a v : String} {asv sv : SemVer}
    (hsv : parseSemver v = some sv) (hpre : sv.pre = []) :
    maxSatStep (some (a, asv)) v =
      if cmpVer asv sv = Ordering.lt then some (v, sv) else some (a, asv) := by
  unfold maxSatStep
  rw [hsv]
  simp [hpre]

theorem maxSatStep_skip {acc : Option (String × SemVer)} {v : String}
    (h : ∀ sv, parseSemver v = some sv → sv.pre ≠ []) :
    maxSatStep acc v = acc := by
  unfold maxSatStep
  rcases hp : parseSemver v with _ | sv
  · rfl
  · have hpre := h sv hp
    have : sv.pre.isEmpty = false := by
      revert hpre
      cases sv.pre <;> simp
    simp [this]

theorem maxSatStep_wf {acc : Option (String × SemVer)} {v : String}
    (hacc : ∀ a asv, acc = some (a, asv) → parseSemver a = some asv ∧ asv.pre = []) :
    ∀ a asv, maxSatStep acc v = some (a, asv) →
      parseSemver a = some asv ∧ asv.pre = [] := by
  intro a asv h
  rcases hp : parseSemver v with _ | sv
  · rw [maxSatStep_skip (by intro sv hsv; rw [hp] at hsv; exact Option.noConfusion hsv)] at h
    exact hacc a asv h
  · by_cases hpre : sv.pre = []
    · cases hac : acc with
      | none =>
        rw [hac, maxSatStep_none_eq hp hpre] at h
        simp only [Option.some.injEq, Prod.mk.injEq] at h
        obtain ⟨rfl, rfl⟩ := h
        exact ⟨hp, hpre⟩
      | some p =>
        cases p with
        | mk b bsv =>
          rw [hac, maxSatStep_some_eq hp hpre] at h
          split at h
          · simp only [Option.some.injEq, Prod.mk.injEq] at h
            obtain ⟨rfl, rfl⟩ := h
            exact ⟨hp, hpre⟩
          · simp only [Option.some.injEq, Prod.mk.injEq] at h
            obtain ⟨rfl, rfl⟩ := h
            exact hacc b bsv hac
    · rw [maxSatStep_skip (by
        intro sv2 hsv2
        rw [hp] at hsv2
        simp only [Option.some.injEq] at hsv2
        rw [← hsv2]
        exact hpre)] at h
      exact hacc a asv h

theorem maxSatStep_foldl_none {l : List String} {acc : Option (String × SemVer)}
    (h : l.foldl maxSatStep acc = none) :
    acc = none ∧ ∀ v ∈ l, ∀ sv, parseSemver v = some sv → sv.pre ≠ [] := by
  induction l generalizing acc with
  | nil => exact ⟨h, by simp⟩
  | cons x xs ih =>
    rw [List.foldl_cons] at h
    obtain ⟨hstep, hrest⟩ := ih h
    have hx : ∀ sv, parseSemver x = some sv → sv.pre ≠ [] := by
      intro sv hsv hpre
      have hs : ∃ q, maxSatStep acc x = some q := by
        cases hac : acc with
        | none => exact ⟨(x, sv), maxSatStep_none_eq hsv hpre⟩
        | some p =>
          cases p with
          | mk a asv =>
            rw [maxSatStep_some_eq hsv hpre]
            by_cases hlt : cmpVer asv sv = Ordering.lt
            · exact ⟨(x, sv), by rw [if_pos hlt]⟩
            · exact ⟨(a, asv), by rw [if_neg hlt]⟩
      obtain ⟨q, hq⟩ := hs
      rw [hq] at hstep
      exact Option.noConfusion hstep
    have haccn : acc = none := by
      cases hac : acc with
      | none => rfl
      | some p =>
        obtain ⟨q, hq⟩ := maxSatStep_of_some hac x
        rw [hq] at hstep
        exact Option.noConfusion hstep
    refine ⟨haccn, ?_⟩
    intro v hv sv hsv
    rcases List.mem_cons.mp hv with rfl | hvm
    · exact hx sv hsv
    · exact hrest v hvm sv hsv

theorem maxSatStep_foldl_some {l : List String} :
    ∀ {acc : Option (String × SemVer)} {m : String} {msv : SemVer},
    (∀ a asv, acc = some (a, asv) → parseSemver a = some asv ∧ asv.pre = []) →
    l.foldl maxSatStep acc = some (m, msv) →
    parseSemver m = some msv ∧ msv.pre = [] ∧
    (acc = some (m, msv) ∨ m ∈ l) ∧
    (∀ a asv, acc = some (a, asv) → cmpVer asv msv ≠ .gt) ∧
    (∀ v ∈ l, ∀ sv, parseSemver v = some sv → sv.pre = [] → cmpVer sv msv ≠ .gt) := by
  induction l with
  | nil =>
    intro acc m msv hacc h
    simp only [List.foldl_nil] at h
    obtain ⟨hp, hpre⟩ := hacc m msv h
    refine ⟨hp, hpre, Or.inl h, ?_, by simp⟩
    intro a asv ha
    rw [ha] at h
    simp only [Option.some.injEq, Prod.mk.injEq] at h
    obtain ⟨rfl, rfl⟩ := h
    rw [cmpLawsVer.refl_eq]
    decide
  | cons x xs ih =>
    intro acc m msv hacc h
    rw [List.foldl_cons] at h
    have hwf := maxSatStep_wf (v := x) hacc
    obtain ⟨hp, hpre, hmem, hbound, helem⟩ := ih hwf h
    by_cases hxgood : ∃ sv, parseSemver x = some sv ∧ sv.pre = []
    · obtain ⟨sv, hsv, hsvpre⟩ := hxgood
      refine ⟨hp, hpre, ?_, ?_, ?_⟩
      · rcases hmem with hm | hm
        · cases hac : acc with
          | none =>
            rw [hac, maxSatStep_none_eq hsv hsvpre] at hm
            simp only [Option.some.injEq, Prod.mk.injEq] at hm
            exact Or.inr (by rw [← hm.1]; exact List.mem_cons_self x xs)
          | some p =>
            cases p with
            | mk a asv =>
              rw [hac, maxSatStep_some_eq hsv hsvpre] at hm
              split at hm
              · simp only [Option.some.injEq, Prod.mk.injEq] at hm
                exact Or.inr (by rw [← hm.1]; exact List.mem_cons_self x xs)
              · exact Or.inl hm
        · exact Or.inr (List.mem_cons_of_mem x hm)
      · intro a asv ha
        subst ha
        rw [maxSatStep_some_eq hsv hsvpre] at hbound
        by_cases hlt : cmpVer asv sv = Ordering.lt
        · rw [if_pos hlt] at hbound
          have h1 : cmpVer sv msv ≠ .gt := hbound x sv rfl
          have h2 : cmpVer asv sv ≠ .gt := by rw [hlt]; decide
          exact cmpLawsVer.le_trans' h2 h1
        · rw [if_neg hlt] at hbound
          exact hbound a asv rfl
      · intro v hv sv2 hsv2 hsv2pre
        rcases List.mem_cons.mp hv with rfl | hvm
        · have hsveq : sv2 = sv := by
            rw [hsv] at hsv2
            simp only [Option.some.injEq] at hsv2
            rw [hsv2]
          subst hsveq
          cases hac : acc with
          | none =>
            rw [hac, maxSatStep_none_eq hsv hsvpre] at hbound
            exact hbound v sv2 rfl
          | some p =>
            cases p with
            | mk a asv =>
              rw [hac, maxSatStep_some_eq hsv hsvpre] at hbound
              by_cases hlt : cmpVer asv sv2 = Ordering.lt
              · rw [if_pos hlt] at hbound
                exact hbound v sv2 rfl
              · rw [if_neg hlt] at hbound
                have h1 : cmpVer asv msv ≠ .gt := hbound a asv rfl
                have h2 : cmpVer sv2 asv ≠ .gt := by
                  rw [cmpLawsVer.swap]
                  cases hc : cmpVer asv sv2 with
                  | lt => exact absurd hc hlt
                  | eq => decide
                  | gt => decide
                exact cmpLawsVer.le_trans' h2 h1
        · exact helem v hvm sv2 hsv2 hsv2pre
    · have hskip : maxSatStep acc x = acc := by
        apply maxSatStep_skip
        intro sv hsv hpre2
        exact hxgood ⟨sv, hsv, hpre2⟩
      rw [hskip] at hmem hbound
      refine ⟨hp, hpre, ?_, hbound, ?_⟩
      · rcases hmem with hm | hm
        · exact Or.inl hm
        · exact Or.inr (List.mem_cons_of_mem x hm)
      · intro v hv sv hsv hsvpre
        rcases List.mem_cons.mp hv with rfl | hvm
        · exact absurd ⟨sv, hsv, hsvpre⟩ hxgood
        · exact helem v hvm sv hsv hsvpre

/-! ### getLatestVersionFromTags -/

theorem getLatest_none_iff {tags : List String}
    (h : getLatestVersionFromTags tags = none) :
    ∀ t ∈ tags, ∀ sv, parseSemver (cleanVersion t) = some sv → sv.pre ≠ [] := by
  unfold getLatestVersionFromTags at h
  intro t ht sv hsv hpre
  have hvalid : semverValid (cleanVersion t) = true := by
    unfold semverValid
    rw [hsv]
    rfl
  have hmem : cleanVersion t ∈ (tags.map cleanVersion).filter semverValid :=
    List.mem_filter.mpr ⟨List.mem_map_of_mem cleanVersion ht, hvalid⟩
  split at h
  · next he =>
    rw [List.isEmpty_iff] at he
    rw [he] at hmem
    exact absurd hmem (List.not_mem_nil _)
  · unfold maxSatisfyingStar at h
    rw [Option.map_eq_none'] at h
    obtain ⟨_, helems⟩ := maxSatStep_foldl_none h
    exact helems (cleanVersion t) hmem sv hsv hpre

theorem getLatest_some_spec {tags : List String} {m : String}
    (h : getLatestVersionFromTags tags = some m) :
    m ∈ tags.map cleanVersion ∧
    ∃ msv, parseSemver m = some msv ∧ msv.pre = [] ∧
      ∀ t ∈ tags, ∀ sv, parseSemver (cleanVersion t) = some sv → sv.pre = [] →
        cmpVer sv msv ≠ .gt := by
  unfold getLatestVersionFromTags at h
  split at h
  · exact Option.noConfusion h
  · unfold maxSatisfyingStar at h
    rw [Option.map_eq_some'] at h
    obtain ⟨⟨m', msv⟩, hfold, hm'⟩ := h
    simp only at hm'
    subst hm'
    obtain ⟨hp, hpre, hmem, _, helem⟩ :=
      maxSatStep_foldl_some (by intro a asv ha; exact Option.noConfusion ha) hfold
    constructor
    · rcases hmem with hm | hm
      · exact Option.noConfusion hm
      · exact (List.mem_filter.mp hm).1
    · refine ⟨msv, hp, hpre, ?_⟩
      intro t ht sv hsv hsvpre
      have hvalid : semverValid (cleanVersion t) = true := by
        unfold semverValid
        rw [hsv]
        rfl
      have hmemf : cleanVersion t ∈ (tags.map cleanVersion).filter semverValid :=
        List.mem_filter.mpr ⟨List.mem_map_of_mem cleanVersion ht, hvalid⟩
      exact helem (cleanVersion t) hmemf sv hsv hsvpre

/-! ### suggestNextVersion and publish version resolution -/

theorem setCurrentVersion_ok {vm : VersionManager} {s : String} {sv : SemVer}
    (h : parseSemver (cleanVersion s) = some sv) :
    vm.setCurrentVersion s = .ok { vm with currentVersion := cleanVersion s } := by
  unfold VersionManager.setCurrentVersion
  rw [if_pos (by unfold semverValid; rw [h]; rfl)]

theorem suggestNextVersion_ok {vm : VersionManager} {w0 : SemVer}
    (hvm : parseSemver vm.currentVersion = some w0) (tags : List String) :
    ∃ s vm1 w1, vm.suggestNextVersion tags = .ok (s, vm1) ∧
      parseSemver vm1.currentVersion = some w1 := by
  unfold VersionManager.suggestNextVersion
  rcases hl : getLatestVersionFromTags tags with _ | latest
  · exact ⟨_, vm, w0, rfl, hvm⟩
  · obtain ⟨_, msv, hpl, _, _⟩ := getLatest_some_spec hl
    have hclean := parseSemver_clean hpl
    simp only [setCurrentVersion_ok hclean]
    exact ⟨_, _, msv, rfl, hclean⟩

theorem incrementVersion_ok {vm : VersionManager} {w1 : SemVer}
    (hvm : parseSemver vm.currentVersion = some w1) (t : VersionType) :
    vm.incrementVersion t =
      .ok ((w1.incr t).format, { vm with currentVersion := (w1.incr t).format }) := by
  unfold VersionManager.incrementVersion semverInc
  rw [hvm]
  rfl

theorem emit_st (w : W) (op : GitOp) : (emit w op).st = w.st := rfl

theorem emit_tr (w : W) (op : GitOp) : (emit w op).tr = w.tr ++ [op] := rfl

theorem bindE_ok {α β : Type} {a : α} {w : W} {f : α → W → Except FlowError β × W} :
    bindE (Except.ok a, w) f = f a w := rfl

theorem bindE_error {α β : Type} {e : FlowError} {w : W}
    {f : α → W → Except FlowError β × W} :
    bindE (Except.error e, w) f = (Except.error e, w) := rfl

theorem resolvePublishVersion_default (w : W) :
    ∃ vm', resolvePublishVersion (VersionManager.make none none) none w =
      (.ok vm', emit w .getTagsOp) := by
  have hvm0 : parseSemver (VersionManager.make none none).currentVersion =
      some ⟨0, 0, 0, []⟩ := by rfl
  obtain ⟨s, vm1, w1, hsug, hw1⟩ := suggestNextVersion_ok hvm0 w.st.tags
  refine ⟨{ vm1 with currentVersion := (w1.incr .patch).format }, ?_⟩
  unfold resolvePublishVersion
  show (match (VersionManager.make none none).suggestNextVersion (getTagsStep w).1 with
    | Except.error e => (Except.error e, (getTagsStep w).2)
    | Except.ok (_, vm1) =>
      match vm1.incrementPatch with
      | Except.error e => (Except.error e, (getTagsStep w).2)
      | Except.ok (_, vm2) => (Except.ok vm2, (getTagsStep w).2)) = _
  rw [show (getTagsStep w).1 = w.st.tags from rfl, hsug]
  show (match vm1.incrementPatch with
    | Except.error e => (Except.error e, (getTagsStep w).2)
    | Except.ok (_, vm2) => (Except.ok vm2, (getTagsStep w).2)) = _
  unfold VersionManager.incrementPatch
  rw [incrementVersion_ok hw1]
  rfl

theorem locateDevelopBranch_none (env : Env) (w : W)
    (h1 : (w.st.currentBranch == developBranchName ||
        strStartsWith w.st.currentBranch (developBranchName ++ "/")) = false)
    (h2 : w.st.localBranches.filter
        (fun b => strStartsWith b "develop/" || b == developBranchName) = [])
    (h3 : w.st.remoteListed.filter (fun b => strContains b developBranchName) = []) :
    locateDevelopBranch env w = (.error (.thrown NO_DEVELOP_BRANCH_MSG),
      emit (emit (emit w .currentBranchRead) .currentBranchRead) .branchesRead) := by
  unfold locateDevelopBranch isOnDevelopBranch getCurrentBranchStep getBranchesStep
  simp only [emit_st, h1, Bool.false_eq_true, if_false, h2, h3, List.isEmpty_nil,
    if_true, List.map_nil]

/-- Claim C1: when the current branch is not a develop branch and neither a
local nor a remote branch matches the develop pattern, publish() (with no
options) fails with the missing-develop-branch error, the repository state is
unchanged, and the only operations performed before the failure are reads:
no tag creation, no merge and no push occurs. -/
theorem publish_no_develop_fails_without_side_effects
    (env : Env) (cfg : ReleaseBodyConfig) (st : RepoState)
    (h1 : (st.currentBranch == developBranchName ||
        strStartsWith st.currentBranch (developBranchName ++ "/")) = false)
    (h2 : st.localBranches.filter
        (fun b => strStartsWith b "develop/" || b == developBranchName) = [])
    (h3 : st.remoteListed.filter (fun b => strContains b developBranchName) = []) :
    ∃ w', GitFlow.publish env cfg none (W.init st) =
        (.error (.thrown NO_DEVELOP_BRANCH_MSG), w') ∧
      w'.st = st ∧
      w'.tr = [.getTagsOp, .currentBranchRead, .currentBranchRead, .branchesRead] ∧
      w'.tr.all GitOp.isReadOnly = true := by
  obtain ⟨vm', hres⟩ := resolvePublishVersion_default (W.init st)
  unfold GitFlow.publish
  simp only [hres, bindE_ok]
  rw [locateDevelopBranch_none env (emit (W.init st) .getTagsOp) h1 h2 h3]
  simp only [bindE_error]
  exact ⟨_, rfl, rfl, rfl, rfl⟩

theorem W_init_st (st : RepoState) : (W.init st).st = st := rfl

theorem W_init_tr (st : RepoState) : (W.init st).tr = [] := rfl

/-- Claim C5: when the working tree has conflicts, commit() fails with the
conflicts-exist error before any staging or commit call: the repository state
is unchanged and the only operations performed are the stash-list and status
reads. -/
theorem commit_conflicts_fails_before_mutation (env : Env) (st : RepoState)
    (msg : String) (h : st.conflicted = true) :
    ∃ w', GitFlow.commit env msg (W.init st) =
        (.error (.thrown CONFLICTS_EXIST_MSG), w') ∧
      w'.st = st ∧ w'.tr = [.stashList, .statusRead] ∧
      w'.tr.all GitOp.isReadOnly = true := by
  refine ⟨emit (emit (W.init st) .stashList) .statusRead, ?_, rfl, rfl, rfl⟩
  unfold GitFlow.commit stashListStep hasConflictsStep
  simp [emit_st, W_init_st, h]

/-! ### Repository initialisation -/

theorem createGitignore_remotes (w : W) :
    (createGitignoreIfNotExists w).st.remotes = w.st.remotes := by
  simp only [createGitignoreIfNotExists]
  split <;> rfl

theorem createReleaseYml_remotes (w : W) :
    (createReleaseYmlIfNotExists w).st.remotes = w.st.remotes := by
  simp only [createReleaseYmlIfNotExists]
  split <;> rfl

theorem createGitignore_tr (w : W) :
    ∃ l, (createGitignoreIfNotExists w).tr = w.tr ++ l ∧
      l.all (fun op => !op.isRepoCreation && !op.isRemoteConfigChange) = true := by
  simp only [createGitignoreIfNotExists]
  split
  · exact ⟨[.accessOp ".gitignore"], rfl, rfl⟩
  · refine ⟨[.accessOp ".gitignore", .writeFileOp ".gitignore"], ?_, rfl⟩
    show (w.tr ++ [GitOp.accessOp ".gitignore"]) ++ [GitOp.writeFileOp ".gitignore"] = _
    rw [List.append_assoc]
    rfl

theorem createReleaseYml_tr (w : W) :
    ∃ l, (createReleaseYmlIfNotExists w).tr = w.tr ++ l ∧
      l.all (fun op => !op.isRepoCreation && !op.isRemoteConfigChange) = true := by
  simp only [createReleaseYmlIfNotExists]
  split
  · exact ⟨[.accessOp ".github/release.yml"], rfl, rfl⟩
  · refine ⟨[.accessOp ".github/release.yml", .mkdirOp ".github",
      .writeFileOp ".github/release.yml"], ?_, rfl⟩
    show ((w.tr ++ [GitOp.accessOp ".github/release.yml"]) ++ [GitOp.mkdirOp ".github"])
        ++ [GitOp.writeFileOp ".github/release.yml"] = _
    rw [List.append_assoc, List.append_assoc]
    rfl

/-- Claim C2: re-running initRepository when the remote repository already
exists and the working tree is already a repository with a configured origin
remote is idempotent: the existing remote repository is looked up and
returned (no repository-creation call is made), the configured remotes — in
particular the origin URL — are left unchanged, and no operation of the run
creates a repository or changes the remote configuration. -/
theorem initRepository_idempotent (env : Env) (opts : RepoInitOptions)
    (st : RepoState) (info : RepoInfo)
    (hex : env.repoExistsResult = .ok true)
    (hget : env.getRepoResult = .ok info)
    (hrepo : st.isRepo = true)
    (horigin : st.remotes.any (fun p => p.1 == "origin") = true) :
    ∃ w', GitFlow.initRepository env opts (W.init st) = (.ok info, w') ∧
      w'.st.remotes = st.remotes ∧
      w'.tr.all (fun op => !op.isRepoCreation && !op.isRemoteConfigChange) = true := by
  have hadd : ∀ w : W, w.st = st →
      addRemoteIfNotExists info.cloneUrl w =
        (.ok (), emit (emit w .isRepoRead) .remotesRead) := by
    intro w hw
    simp only [addRemoteIfNotExists, isRepoStep, getRemotesStep, emit_st, hw, hrepo,
      horigin, Bool.not_true, Bool.false_eq_true, if_false, if_true]
  have hinit : ∀ w : W, w.st = st →
      initRemote env opts.repoName opts.repoType opts.owner w =
        (.ok info,
          emit (emit (emit (emit w (.platformRepoExistsOp opts.owner opts.repoName))
            (.platformGetRepoOp opts.owner opts.repoName)) .isRepoRead) .remotesRead) := by
    intro w hw
    simp only [initRemote, hex, hget]
    rw [hadd _ (by rw [emit_st, emit_st, hw])]
    rfl
  have hcheck : checkExistingRepo (W.init st) =
      (!st.remotes.isEmpty, emit (emit (W.init st) .isRepoRead) .remotesRead) := by
    simp only [checkExistingRepo, isRepoStep, getRemotesStep, emit_st, W_init_st,
      hrepo, if_true]
  simp only [GitFlow.initRepository, hcheck]
  rw [hinit _ rfl]
  simp only [bindE_ok]
  refine ⟨_, rfl, ?_, ?_⟩
  · rw [createReleaseYml_remotes, createGitignore_remotes]
    rfl
  · obtain ⟨l1, hl1, hb1⟩ := createGitignore_tr (emit (emit (emit (emit (emit (emit
      (emit (emit (emit (W.init st) .isRepoRead) .remotesRead)
      (.writeConfigOp ".git_platform"))
      (.writeConfigOp ".git_own")) (.writeConfigOp ".git_login"))
      (.platformRepoExistsOp opts.owner opts.repoName))
      (.platformGetRepoOp opts.owner opts.repoName)) .isRepoRead) .remotesRead)
    obtain ⟨l2, hl2, hb2⟩ := createReleaseYml_tr _
    rw [hl2, hl1]
    simp only [List.all_append, hb1, hb2, Bool.and_true]
    rfl

/-! ### Version monotonicity -/

/-- Claim C3 counterexample: setCurrentVersion accepts a strictly smaller
valid version, so the version value held by a VersionManager can decrease —
the only-increases invariant does not hold for setCurrentVersion. -/
theorem setCurrentVersion_not_monotone :
    (VersionManager.make (some "1.0.0") none).setCurrentVersion "0.0.1" =
      .ok ⟨"0.0.1", "v"⟩ ∧
    compareVersions "0.0.1" (VersionManager.make (some "1.0.0") none).currentVersion =
      some (-1) := by
  constructor
  · rfl
  · decide

/-- Claim C3 amended: incrementVersion does strictly increase the current
version under semver ordering, but setCurrentVersion performs no ordering
check at all — it stores any valid cleaned version, larger or smaller. -/
theorem version_updates_amended (vm : VersionManager) (t : VersionType)
    (v' : String) (vm' : VersionManager) (s : String)
    (hinc : vm.incrementVersion t = .ok (v', vm'))
    (hval : semverValid (cleanVersion s) = true) :
    compareVersions vm'.currentVersion vm.currentVersion = some 1 ∧
    vm.setCurrentVersion s = .ok { vm with currentVersion := cleanVersion s } := by
  constructor
  · obtain ⟨hc, he⟩ := incrementVersion_gt hinc
    rw [he]
    exact hc
  · unfold semverValid at hval
    rcases hp : parseSemver (cleanVersion s) with _ | sv
    · rw [hp] at hval
      exact absurd hval (by decide)
    · exact setCurrentVersion_ok hp

theorem version_updates_amended_witness :
    compareVersions (VersionManager.mk "1.0.1" "v").currentVersion
        (VersionManager.mk "1.0.0" "v").currentVersion = some 1 ∧
    (VersionManager.mk "1.0.0" "v").setCurrentVersion "v2.0.0" =
      .ok { VersionManager.mk "1.0.0" "v" with currentVersion := cleanVersion "v2.0.0" } :=
  version_updates_amended (VersionManager.mk "1.0.0" "v") .patch "1.0.1"
    (VersionManager.mk "1.0.1" "v") "v2.0.0" rfl (by decide)

/-! ### The latest tagged version -/

/-- Claim C4 counterexample: a tag list whose only entry is a valid
prerelease semver yields none, although the tag is valid after stripping the
prefix — the wildcard maximum excludes prereleases, so the function does not
return the maximum of all valid tags. -/
theorem getLatest_prerelease_cex :
    isValidVersion "v1.0.0-alpha" = true ∧
    getLatestVersionFromTags ["v1.0.0-alpha"] = none := by
  constructor
  · decide
  · decide

/-- Claim C4 amended: getLatestVersionFromTags maximises over the valid
stable cleaned tags only — prerelease versions are skipped by the wildcard
range — returning none when no stable valid tag is present; on the claim's
concrete input (which has no prereleases) it does return 1.2.0. -/
theorem getLatestVersionFromTags_amended (tags : List String) :
    (getLatestVersionFromTags tags = none →
      ∀ t ∈ tags, ∀ sv, parseSemver (cleanVersion t) = some sv → sv.pre ≠ []) ∧
    (∀ m, getLatestVersionFromTags tags = some m →
      m ∈ tags.map cleanVersion ∧
      ∃ msv, parseSemver m = some msv ∧ msv.pre = [] ∧
        ∀ t ∈ tags, ∀ sv, parseSemver (cleanVersion t) = some sv → sv.pre = [] →
          cmpVer sv msv ≠ .gt) ∧
    getLatestVersionFromTags ["v1.0.0", "v1.2.0", "garbage", "v1.1.5"] =
      some "1.2.0" := by
  refine ⟨getLatest_none_iff, fun m h => getLatest_some_spec h, by decide⟩

theorem getLatestVersionFromTags_amended_witness :
    (∀ t ∈ ["v1.0.0-alpha"], ∀ sv, parseSemver (cleanVersion t) = some sv →
      sv.pre ≠ []) ∧
    getLatestVersionFromTags ["v1.0.0", "v1.2.0", "garbage", "v1.1.5"] =
      some "1.2.0" := by
  obtain ⟨hnone, _, hconc⟩ := getLatestVersionFromTags_amended ["v1.0.0-alpha"]
  exact ⟨hnone (by decide), hconc⟩

/-! ### Release-notes fallback -/

theorem categorizeCommit_count (cfg : ReleaseBodyConfig) (b : ReleaseBuckets)
    (c : CommitEntry) :
    (categorizeCommit cfg b c).conventionalCount =
      b.conventionalCount + (if isConventionalCommit c then 1 else 0) := by
  have toF : ∀ x : Bool, ¬x = true → x = false := by
    intro x hx
    cases x
    · rfl
    · exact absurd rfl hx
  simp only [categorizeCommit, isConventionalCommit]
  by_cases h1 : strContains c.body "BREAKING CHANGE" = true
  · rw [if_pos h1]
    simp [h1]
  · rw [if_neg h1]
    by_cases h2 : hasConvMarker "feat" (firstLine c.message) = true
    · rw [if_pos h2]
      simp [toF _ h1, h2]
    · rw [if_neg h2]
      by_cases h3 : hasConvMarker "fix" (firstLine c.message) = true
      · rw [if_pos h3]
        simp [toF _ h1, toF _ h2, h3]
      · rw [if_neg h3]
        by_cases h4 : hasConvMarker "docs" (firstLine c.message) = true
        · rw [if_pos h4]
          simp [toF _ h1, toF _ h2, toF _ h3, h4]
        · rw [if_neg h4]
          by_cases h5 : hasConvMarker "chore" (firstLine c.message) = true
          · rw [if_pos h5]
            simp [toF _ h1, toF _ h2, toF _ h3, toF _ h4, h5]
          · rw [if_neg h5]
            have hC : (strContains c.body "BREAKING CHANGE" ||
                hasConvMarker "feat" (firstLine c.message) ||
                hasConvMarker "fix" (firstLine c.message) ||
                hasConvMarker "docs" (firstLine c.message) ||
                hasConvMarker "chore" (firstLine c.message)) = false := by
              simp [toF _ h1, toF _ h2, toF _ h3, toF _ h4, toF _ h5]
            simp only [hC, Bool.false_eq_true, if_false]
            split_ifs <;> rfl

theorem foldl_categorize_count (cfg : ReleaseBodyConfig) (log : List CommitEntry)
    (b : ReleaseBuckets) :
    (log.foldl (categorizeCommit cfg) b).conventionalCount =
      b.conventionalCount + log.countP (fun c => isConventionalCommit c) := by
  induction log generalizing b with
  | nil => simp
  | cons c cs ih =>
    rw [List.foldl_cons, ih, categorizeCommit_count, List.countP_cons]
    by_cases h : isConventionalCommit c = true <;> simp [h] <;> omega

/-- Claim C6: when the number of conventionally recognised commits of the
log (BREAKING CHANGE body marker, or a feat/fix/docs/chore first-line marker
with optional scope) is below the configured minimum and the fallback flag is
set, generateReleaseBody returns the empty string, the caller's signal to
fall back to the platform's automatic notes. -/
theorem release_body_below_threshold_empty (cfg : ReleaseBodyConfig)
    (log : List CommitEntry) (prev : Option String) (cur owner repo : String)
    (hfb : cfg.fallbackToAuto = true)
    (hcount : log.countP (fun c => isConventionalCommit c) <
      cfg.minCommitsForCustom) :
    generateReleaseBody cfg (some log) prev cur owner repo = "" := by
  rcases log with _ | ⟨c, cs⟩
  · rfl
  · have hb : (cfg.fallbackToAuto &&
        decide (((c :: cs).foldl (categorizeCommit cfg) emptyBuckets).conventionalCount <
          cfg.minCommitsForCustom)) = true := by
      rw [hfb, foldl_categorize_count]
      simpa [emptyBuckets] using hcount
    simp only [generateReleaseBody]
    rw [if_neg (by simp), if_pos hb]

theorem release_body_below_threshold_witness :
    generateReleaseBody sampleCfg (some [⟨"hello world", "abcdef012", ""⟩]) none
      "1.0.0" "me" "demo" = "" :=
  release_body_below_threshold_empty sampleCfg [⟨"hello world", "abcdef012", ""⟩]
    none "1.0.0" "me" "demo" rfl (by decide)

/-! ### The develop branch existence check -/

theorem developBranchFor_not_remote (b? v? : Option String) :
    strStartsWith (developBranchFor b? v?) "remotes/" = false := by
  have hd : ∀ s : String, strStartsWith ("develop" ++ s) "remotes/" = false :=
    fun s => rfl
  rcases v? with _ | v
  · rcases b? with _ | n
    · rfl
    · show strStartsWith (if n != developBranchName then developBranchName ++ "/" ++ n
        else developBranchName) "remotes/" = false
      split
      · exact hd ("/" ++ n)
      · rfl
  · exact hd ("/" ++ v)

/-- Claim C7 counterexample: with the develop branch present only as the
remote-tracking entry remotes/origin/develop of the branch -a listing — a
branch that does exist remotely under the computed name — branchExists
misses it (the listing holds the prefixed name, not the plain one), so
createDevelopBranch creates a new branch instead of checking the existing
one out. -/
theorem createDevelopBranch_remote_cex :
    stripRemotesPre "remotes/origin/develop" = developBranchName ∧
    "remotes/origin/develop" ∈ remoteDevelopState.branchListing ∧
    ∃ w', createDevelopBranch none none (W.init remoteDevelopState) =
        (.ok developBranchName, w') ∧
      w'.tr = [.branchesRead, .checkoutNewOp developBranchName] := by
  refine ⟨by decide, by decide, ⟨_, rfl, ?_⟩⟩
  decide

/-- Claim C7 amended: the existence check of createDevelopBranch is literal
membership of the computed develop name in the full branch -a listing: a
literally listed name is checked out, and any other computed name — even one
whose branch exists remotely as remotes/origin/<name> — is created anew with
checkout -b; in both cases the computed name is returned and becomes the
current branch. -/
theorem createDevelopBranch_checks_listing (branchName? version? : Option String)
    (st : RepoState) :
    ∃ w', createDevelopBranch branchName? version? (W.init st) =
        (.ok (developBranchFor branchName? version?), w') ∧
      w'.st.currentBranch = developBranchFor branchName? version? ∧
      (st.branchListing.contains (developBranchFor branchName? version?) = true →
        w'.tr = [.branchesRead, .checkoutOp (developBranchFor branchName? version?)]) ∧
      (st.branchListing.contains (developBranchFor branchName? version?) = false →
        w'.tr = [.branchesRead, .checkoutNewOp (developBranchFor branchName? version?)]) := by
  have hnr := developBranchFor_not_remote branchName? version?
  by_cases hmem : st.branchListing.contains (developBranchFor branchName? version?) = true
  · have hm : developBranchFor branchName? version? ∈ st.branchListing :=
      List.elem_iff.mp hmem
    have hloc : st.localBranches.contains (developBranchFor branchName? version?) = true :=
      List.elem_iff.mpr (List.mem_filter.mpr ⟨hm, by simp [hnr]⟩)
    refine ⟨⟨{ st with currentBranch := developBranchFor branchName? version? },
        [.branchesRead, .checkoutOp (developBranchFor branchName? version?)]⟩,
      ?_, rfl, fun _ => rfl, fun hf => Bool.noConfusion (hmem.symm.trans hf)⟩
    simp only [createDevelopBranch, branchExistsStep, getBranchesStep, emit_st,
      W_init_st, hmem, if_true, checkoutStep, hloc, bindE_ok]
    rfl
  · have hmem' : st.branchListing.contains (developBranchFor branchName? version?) = false := by
      cases hq : st.branchListing.contains (developBranchFor branchName? version?)
      · rfl
      · exact absurd hq hmem
    have hm : developBranchFor branchName? version? ∉ st.branchListing := fun hin =>
      Bool.noConfusion ((List.elem_iff.mpr hin).symm.trans hmem')
    have hloc : st.localBranches.contains (developBranchFor branchName? version?) = false := by
      cases hq : st.localBranches.contains (developBranchFor branchName? version?)
      · rfl
      · exact absurd (List.mem_filter.mp (List.elem_iff.mp hq)).1 hm
    refine ⟨⟨{ st with
          currentBranch := developBranchFor branchName? version?
          branchListing := st.branchListing ++ [developBranchFor branchName? version?] },
        [.branchesRead, .checkoutNewOp (developBranchFor branchName? version?)]⟩,
      ?_, rfl, fun ht => Bool.noConfusion (hmem'.symm.trans ht), fun _ => rfl⟩
    simp only [createDevelopBranch, branchExistsStep, getBranchesStep, emit_st,
      W_init_st, hmem', Bool.false_eq_true, if_false, checkoutNewStep, hloc, bindE_ok]
    rfl

theorem createDevelopBranch_checks_listing_witness :
    ∃ w', createDevelopBranch none none (W.init sampleState) =
        (.ok (developBranchFor none none), w') ∧
      w'.st.currentBranch = developBranchFor none none ∧
      w'.tr = [.branchesRead, .checkoutNewOp (developBranchFor none none)] := by
  obtain ⟨w', he, hc, _, hnew⟩ := createDevelopBranch_checks_listing none none sampleState
  exact ⟨w', he, hc, hnew (by decide)⟩

/-! ### Comparator laws on version strings -/

/-- Claim C8: on valid semver strings compareVersions is antisymmetric
(swapping the arguments negates the result) and transitive (two nonpositive
comparisons compose to a nonpositive one), and a patch increment of a valid
current version yields a version strictly greater than it. -/
theorem compareVersions_laws (v1 v2 v3 : String)
    (h1 : semverValid v1 = true) (h2 : semverValid v2 = true)
    (h3 : semverValid v3 = true) :
    (∃ i, compareVersions v1 v2 = some i ∧ compareVersions v2 v1 = some (-i)) ∧
    (∀ i j, compareVersions v1 v2 = some i → compareVersions v2 v3 = some j →
      i ≤ 0 → j ≤ 0 → ∃ k, compareVersions v1 v3 = some k ∧ k ≤ 0) ∧
    (∀ vm : VersionManager, vm.currentVersion = v1 →
      ∃ v' vm', vm.incrementVersion .patch = .ok (v', vm') ∧
        compareVersions v' v1 = some 1) := by
  unfold semverValid at h1 h2 h3
  obtain ⟨a, ha⟩ := Option.isSome_iff_exists.mp h1
  obtain ⟨b, hb⟩ := Option.isSome_iff_exists.mp h2
  obtain ⟨c, hc⟩ := Option.isSome_iff_exists.mp h3
  have hcmp : ∀ (x y : String) (sx sy : SemVer), parseSemver x = some sx →
      parseSemver y = some sy →
      compareVersions x y = some (ordToInt (cmpVer sx sy)) := by
    intro x y sx sy hx hy
    unfold compareVersions semverCompare
    rw [parseSemver_clean hx, parseSemver_clean hy]
  refine ⟨⟨ordToInt (cmpVer a b), hcmp v1 v2 a b ha hb, ?_⟩, ?_, ?_⟩
  · rw [hcmp v2 v1 b a hb ha, cmpLawsVer.swap b a, ordToInt_swap]
  · intro i j hi hj hi0 hj0
    rw [hcmp v1 v2 a b ha hb] at hi
    rw [hcmp v2 v3 b c hb hc] at hj
    obtain rfl : ordToInt (cmpVer a b) = i := by
      simpa using hi
    obtain rfl : ordToInt (cmpVer b c) = j := by
      simpa using hj
    refine ⟨ordToInt (cmpVer a c), hcmp v1 v3 a c ha hc, ?_⟩
    exact ordToInt_nonpos.mpr
      (cmpLawsVer.le_trans' (ordToInt_nonpos.mp hi0) (ordToInt_nonpos.mp hj0))
  · intro vm hvm
    have ha' : parseSemver vm.currentVersion = some a := by
      rw [hvm]
      exact ha
    have hok := incrementVersion_ok ha' VersionType.patch
    obtain ⟨hcmp1, _⟩ := incrementVersion_gt hok
    rw [hvm] at hcmp1
    exact ⟨_, _, hok, hcmp1⟩

theorem compareVersions_laws_witness :
    (∃ k, compareVersions "1.0.0" "3.0.0" = some k ∧ k ≤ 0) ∧
    (∃ v' vm', (VersionManager.make (some "1.0.0") none).incrementVersion .patch =
        .ok (v', vm') ∧ compareVersions v' "1.0.0" = some 1) := by
  obtain ⟨hanti, htrans, hinc⟩ :=
    compareVersions_laws "1.0.0" "2.0.0" "3.0.0" (by decide) (by decide) (by decide)
  refine ⟨htrans (-1) (-1) (by decide) (by decide) (by decide) (by decide),
    hinc (VersionManager.make (some "1.0.0") none) (by decide)⟩

/-! ### Platform 404 policy -/

/-- Claim C9: for both adapters repoExists maps a successful lookup to true
and a 404 failure to false — a 404 is never turned into an exception — while
every other failure is rethrown carrying the platform's diagnostic. -/
theorem repoExists_404_policy (u : Unit) (eg : GitHubRequestError)
    (ee : GiteeRequestError) :
    GitHubPlatform.repoExists (.ok u) = .ok true ∧
    GiteePlatform.repoExists (.ok u) = .ok true ∧
    (eg.status = some 404 → GitHubPlatform.repoExists (.error eg) = .ok false) ∧
    (eg.status ≠ some 404 → GitHubPlatform.repoExists (.error eg) = .error eg) ∧
    (ee.responseStatus = some 404 → GiteePlatform.repoExists (.error ee) = .ok false) ∧
    (ee.responseStatus ≠ some 404 → GiteePlatform.repoExists (.error ee) = .error ee) := by
  refine ⟨rfl, rfl, ?_, ?_, ?_, ?_⟩ <;> intro h <;>
    simp [GitHubPlatform.repoExists, GiteePlatform.repoExists, h]

theorem repoExists_404_policy_witness :
    GitHubPlatform.repoExists (.error ⟨some 404, "Not Found"⟩) = .ok false ∧
    GiteePlatform.repoExists (.error ⟨some 500, "boom"⟩) = .error ⟨some 500, "boom"⟩ := by
  obtain ⟨_, _, hg404, _, _, hother⟩ :=
    repoExists_404_policy () ⟨some 404, "Not Found"⟩ ⟨some 500, "boom"⟩
  exact ⟨hg404 rfl, hother (by decide)⟩

/-! ### Constructor totality -/

/-- Claim C10: constructing a VersionManager never throws — an absent or
invalid initial version is silently replaced with the default 0.0.0 — in
contrast to setCurrentVersion, which raises on an invalid version. -/
theorem versionManager_constructor_total (cv? pfx? : Option String) :
    (∀ s, cv? = some s → semverValid s = false →
      (VersionManager.make cv? pfx?).currentVersion = "0.0.0") ∧
    (cv? = none → (VersionManager.make cv? pfx?).currentVersion = "0.0.0") ∧
    (∀ (vm : VersionManager) (s : String), semverValid (cleanVersion s) = false →
      vm.setCurrentVersion s = .error (.thrown ("无效的版本号: " ++ s))) := by
  refine ⟨?_, ?_, ?_⟩
  · intro s hs hinval
    subst hs
    simp only [VersionManager.make, orDefault]
    by_cases hes : s = ""
    · subst hes
      rfl
    · rw [if_neg hes]
      simp only [hinval, Bool.false_eq_true, if_false]
  · intro hn
    subst hn
    rfl
  · intro vm s hinval
    simp only [VersionManager.setCurrentVersion, hinval, Bool.false_eq_true, if_false]

theorem versionManager_constructor_total_witness :
    (VersionManager.make (some "garbage") none).currentVersion = "0.0.0" ∧
    (VersionManager.make none (some "v")).currentVersion = "0.0.0" ∧
    (VersionManager.mk "1.2.3" "v").setCurrentVersion "garbage" =
      .error (.thrown ("无效的版本号: " ++ "garbage")) := by
  obtain ⟨hinv, _, hset⟩ := versionManager_constructor_total (some "garbage") none
  obtain ⟨_, hnone, _⟩ := versionManager_constructor_total none (some "v")
  exact ⟨hinv "garbage" rfl (by decide), hnone rfl,
    hset (VersionManager.mk "1.2.3" "v") "garbage" (by decide)⟩

/-! ### Witness instances for the orchestration claims -/

theorem publish_no_develop_witness :
    ∃ w', GitFlow.publish sampleEnv sampleCfg none (W.init sampleState) =
        (.error (.thrown NO_DEVELOP_BRANCH_MSG), w') ∧
      w'.st = sampleState ∧
      w'.tr = [.getTagsOp, .currentBranchRead, .currentBranchRead, .branchesRead] ∧
      w'.tr.all GitOp.isReadOnly = true :=
  publish_no_develop_fails_without_side_effects sampleEnv sampleCfg sampleState
    (by decide) (by decide) (by decide)

theorem commit_conflicts_witness :
    ∃ w', GitFlow.commit sampleEnv "feat: change" (W.init conflictedState) =
        (.error (.thrown CONFLICTS_EXIST_MSG), w') ∧
      w'.st = conflictedState ∧ w'.tr = [.stashList, .statusRead] ∧
      w'.tr.all GitOp.isReadOnly = true :=
  commit_conflicts_fails_before_mutation sampleEnv conflictedState "feat: change" rfl

theorem initRepository_idempotent_witness :
    ∃ w', GitFlow.initRepository sampleEnv sampleInitOptions (W.init sampleState) =
        (.ok sampleRepoInfo, w') ∧
      w'.st.remotes = sampleState.remotes ∧
      w'.tr.all (fun op => !op.isRepoCreation && !op.isRemoteConfigChange) = true :=
  initRepository_idempotent sampleEnv sampleInitOptions sampleState sampleRepoInfo
    rfl rfl rfl (by decide)
